import Mathlib

/-!
Verification of the ZIMM (zero-inflated mixture model) EM engine.

The development shallowly embeds `ZIMM.py`.  Pure numerical code is embedded
over the real numbers; the places where IEEE-754 special values (NaN,
infinities) are semantically relevant (the `np.nan_to_num` substitution policy
of the responsibility scorer, the `checkNoNans` guards) are embedded over the
type `F` of idealized floating-point values: a real number, one of the two
infinities, or NaN.  Rounding is idealized away (finite arithmetic is exact),
but the propagation rules for the special values follow IEEE-754.

Exceptions raised by the Python code are embedded as `Except` with the
structured error type `ZimmError`; an error constructor carries exactly the
data interpolated into the corresponding Python exception message.
-/

open Real MeasureTheory intervalIntegral

open scoped Classical

/-- Idealized floating-point values: finite reals, the two infinities, NaN. -/
inductive F : Type where
  | nan : F
  | pinf : F
  | ninf : F
  | fin : ℝ → F

namespace F

/-- IEEE addition on idealized floats: NaN propagates, opposite infinities
give NaN, otherwise infinities absorb; finite addition is exact. -/
def add : F → F → F
  | nan, _ => nan
  | pinf, nan => nan
  | pinf, pinf => pinf
  | pinf, ninf => nan
  | pinf, fin _ => pinf
  | ninf, nan => nan
  | ninf, pinf => nan
  | ninf, ninf => ninf
  | ninf, fin _ => ninf
  | fin _, nan => nan
  | fin _, pinf => pinf
  | fin _, ninf => ninf
  | fin a, fin b => fin (a + b)

/-- IEEE negation. -/
def neg : F → F
  | nan => nan
  | pinf => ninf
  | ninf => pinf
  | fin a => fin (-a)

/-- IEEE multiplication: NaN propagates, `0 * ±∞ = NaN`, signs multiply. -/
noncomputable def mul : F → F → F
  | nan, _ => nan
  | pinf, nan => nan
  | pinf, pinf => pinf
  | pinf, ninf => ninf
  | pinf, fin b => if b = 0 then nan else if 0 < b then pinf else ninf
  | ninf, nan => nan
  | ninf, pinf => ninf
  | ninf, ninf => pinf
  | ninf, fin b => if b = 0 then nan else if 0 < b then ninf else pinf
  | fin _, nan => nan
  | fin a, pinf => if a = 0 then nan else if 0 < a then pinf else ninf
  | fin a, ninf => if a = 0 then nan else if 0 < a then ninf else pinf
  | fin a, fin b => fin (a * b)

/-- IEEE division (with `+0` as the only zero, an idealization: the embedding
has no signed zero).  `x / 0` is `±∞` by the sign of `x`, `0 / 0` is NaN. -/
noncomputable def div : F → F → F
  | nan, _ => nan
  | pinf, nan => nan
  | pinf, pinf => nan
  | pinf, ninf => nan
  | pinf, fin b => if 0 ≤ b then pinf else ninf
  | ninf, nan => nan
  | ninf, pinf => nan
  | ninf, ninf => nan
  | ninf, fin b => if 0 ≤ b then ninf else pinf
  | fin _, nan => nan
  | fin _, pinf => fin 0
  | fin _, ninf => fin 0
  | fin a, fin b =>
      if b = 0 then (if a = 0 then nan else if 0 < a then pinf else ninf)
      else fin (a / b)

/-- `np.exp` on idealized floats (no overflow: finite values stay finite). -/
noncomputable def exp : F → F
  | nan => nan
  | pinf => pinf
  | ninf => fin 0
  | fin a => fin (Real.exp a)

/-- `np.log` on idealized floats: `log 0 = -∞`, `log` of a negative is NaN. -/
noncomputable def log : F → F
  | nan => nan
  | pinf => pinf
  | ninf => nan
  | fin a => if a = 0 then ninf else if a < 0 then nan else fin (Real.log a)

/-- Whether a float is a finite real. -/
def isFinite : F → Bool
  | fin _ => true
  | _ => false

/-- The finite real carried by a float (`0` for the special values). -/
def toReal : F → ℝ
  | fin a => a
  | _ => 0

/-- The largest positive IEEE-754 double. -/
def FMAX : ℝ := 1.7976931348623157e308

/-- `np.nan_to_num` with default options: NaN becomes `0`, the infinities
become the extreme finite doubles `±FMAX`; finite values are unchanged. -/
def nan2num : F → F
  | nan => fin 0
  | pinf => fin FMAX
  | ninf => fin (-FMAX)
  | fin a => fin a

instance : Add F := ⟨F.add⟩

instance : Zero F := ⟨F.fin 0⟩

instance : AddCommMonoid F where
  add_assoc a b c := by
    have h : ∀ x y : F, x + y = F.add x y := fun _ _ => rfl
    cases a <;> cases b <;> cases c <;> simp [h, F.add] <;> ring
  zero_add a := by
    have h : ∀ x y : F, x + y = F.add x y := fun _ _ => rfl
    have h0 : (0 : F) = F.fin 0 := rfl
    cases a <;> simp [h, h0, F.add]
  add_zero a := by
    have h : ∀ x y : F, x + y = F.add x y := fun _ _ => rfl
    have h0 : (0 : F) = F.fin 0 := rfl
    cases a <;> simp [h, h0, F.add]
  add_comm a b := by
    have h : ∀ x y : F, x + y = F.add x y := fun _ _ => rfl
    cases a <;> cases b <;> simp [h, F.add] <;> ring
  nsmul := nsmulRec

/-- `F.fin` as an additive monoid homomorphism, used to pull sums of finite
floats back to real sums. -/
def finHom : ℝ →+ F where
  toFun := F.fin
  map_zero' := rfl
  map_add' _ _ := rfl

end F

/-- The float `1.0` or `0.0` obtained by promoting a numpy boolean, as in
`np.dot(Y_is_zero, M)`. -/
noncomputable def indF (P : Prop) : F := if P then F.fin 1 else F.fin 0

/-- Structured embedding of the exceptions raised by `ZIMM.py`.  Each
constructor carries the data interpolated into the Python message. -/
inductive ZimmError (α : Type) : Type where
  | invalidSigma (negCount nearZeroCount : ℕ) : ZimmError α
  | lambdaNonPositive : ZimmError α
  | nanMatrix (idx : ℕ) : ZimmError α
  | monotonicity (prev cur : α) : ZimmError α
deriving DecidableEq

/-! ## The integral engine (`computeIntegrals`), embedded over the reals

`scipy.special.erf` is embedded by its mathematical definition.  With
`sigma > 0` and `decay_coef > 0` every intermediate quantity of
`computeIntegrals` is a well-defined real number, so this component is
embedded directly over `ℝ`. -/

/-- The error function `erf x = (2/√π) ∫ t in 0..x, exp (-t²)`
(`scipy.special.erf`). -/
noncomputable def erf (x : ℝ) : ℝ :=
  (2 / Real.sqrt π) * ∫ t in (0:ℝ)..x, Real.exp (-t ^ 2)

/-- `a = (1 + 2 σ² λ) / (2 σ²)` from `computeIntegrals`. -/
noncomputable def aval (sigma decay_coef : ℝ) : ℝ :=
  (1 + 2 * sigma ^ 2 * decay_coef) / (2 * sigma ^ 2)

/-- `b = μ / (2 a σ²)` from `computeIntegrals`. -/
noncomputable def bval (mu sigma decay_coef : ℝ) : ℝ :=
  mu / (2 * aval sigma decay_coef * sigma ^ 2)

/-- `D = exp (-μ²/(2σ²) + a b²)` from `computeIntegrals`. -/
noncomputable def Dval (mu sigma decay_coef : ℝ) : ℝ :=
  Real.exp (-mu ^ 2 / (2 * sigma ^ 2) +
    aval sigma decay_coef * bval mu sigma decay_coef ^ 2)

/-- `C = D √π (erf (b √a) + 1) / (2 √a)` from `computeIntegrals`. -/
noncomputable def Cval (mu sigma decay_coef : ℝ) : ℝ :=
  Dval mu sigma decay_coef * Real.sqrt π *
    (erf (bval mu sigma decay_coef * Real.sqrt (aval sigma decay_coef)) + 1) /
    (2 * Real.sqrt (aval sigma decay_coef))

/-- `E1 = C / (√(2π) σ)`: the truncated zero-mass from `computeIntegrals`. -/
noncomputable def E1val (mu sigma decay_coef : ℝ) : ℝ :=
  Cval mu sigma decay_coef / (Real.sqrt (2 * π) * sigma)

/-- `EX = (D/C) exp (-a b²) / (2a) + b` from `computeIntegrals`. -/
noncomputable def EXval (mu sigma decay_coef : ℝ) : ℝ :=
  Dval mu sigma decay_coef / Cval mu sigma decay_coef *
      Real.exp (-(aval sigma decay_coef) * bval mu sigma decay_coef ^ 2) /
      (2 * aval sigma decay_coef) +
    bval mu sigma decay_coef

/-- `EX2` from `computeIntegrals`, translated term by term. -/
noncomputable def EX2val (mu sigma decay_coef : ℝ) : ℝ :=
  let a := aval sigma decay_coef
  let b := bval mu sigma decay_coef
  let Dv := Dval mu sigma decay_coef
  let Cv := Cval mu sigma decay_coef
  Dv / Cv * (Real.sqrt π / (4 * a ^ (1.5 : ℝ)) -
        Real.sqrt π * erf (-b * Real.sqrt a) / (4 * a ^ (1.5 : ℝ)) -
        b * Real.exp (-a * b ^ 2) / (2 * a)) +
    2 * b * (Dv / Cv) * Real.exp (-a * b ^ 2) / (2 * a) + b ^ 2

/-- The number of strictly negative entries of `sigma`, reported in the
`computeIntegrals` error message. -/
noncomputable def sigmaNegCount {D K : ℕ} (sigma : Fin D → Fin K → ℝ) : ℕ :=
  (Finset.univ.filter fun p : Fin D × Fin K => sigma p.1 p.2 < 0).card

/-- The number of near-zero entries (`|sigma| < 1e-6`) of `sigma`, reported in
the `computeIntegrals` error message. -/
noncomputable def sigmaNearZeroCount {D K : ℕ} (sigma : Fin D → Fin K → ℝ) : ℕ :=
  (Finset.univ.filter fun p : Fin D × Fin K => |sigma p.1 p.2| < 1e-6).card

/-- The `(E1, EX, EX2)` triple computed by `computeIntegrals` once its
parameter checks have passed. -/
noncomputable def integralTriple {D K : ℕ} (mu sigma : Fin D → Fin K → ℝ)
    (decay_coef : ℝ) :
    (Fin D → Fin K → ℝ) × (Fin D → Fin K → ℝ) × (Fin D → Fin K → ℝ) :=
  (fun d k => E1val (mu d k) (sigma d k) decay_coef,
   fun d k => EXval (mu d k) (sigma d k) decay_coef,
   fun d k => EX2val (mu d k) (sigma d k) decay_coef)

/-- `computeIntegrals` from `ZIMM.py`: raises (with the counts of negative and
near-zero entries) unless every `sigma` entry is strictly positive, asserts
`decay_coef > 0`, and otherwise returns the closed-form integral triple. -/
noncomputable def computeIntegrals {D K : ℕ} (mu sigma : Fin D → Fin K → ℝ)
    (decay_coef : ℝ) :
    Except (ZimmError ℝ)
      ((Fin D → Fin K → ℝ) × (Fin D → Fin K → ℝ) × (Fin D → Fin K → ℝ)) :=
  if ¬ ∀ d k, 0 < sigma d k then
    .error (.invalidSigma (sigmaNegCount sigma) (sigmaNearZeroCount sigma))
  else if ¬ 0 < decay_coef then .error .lambdaNonPositive
  else .ok (integralTriple mu sigma decay_coef)

/-! ## The responsibility scorer (`computePosteriorLogZProbability`)

Inputs (data and parameters) are finite reals; the computation itself is
carried out over `F`, since the scorer's handling of `log 0`, `0 * ∞` and
`np.nan_to_num` is semantically relevant. -/

/-- `computePosteriorLogZProbability` from `ZIMM.py`.  Entry `(i, k)` is
`log w_k + nan_to_num(Σ_d [Y_id censored]·log E1_dk)
 + Σ_d [observed]·log (1/√(2π σ_dk²))
 + Σ_d nan_to_num([observed]·log (1 - exp (-λ Y_id²)))
 - Σ_d [observed]·((Y_id - μ_dk)² / (2 σ_dk²))`,
computed with IEEE special-value propagation; `[P]` is the numpy boolean
promoted to a float.  Note `np.nan_to_num` is applied after the inner product
over `d` in the censored zero-mass term, but before the sum over `d` in the
decay term, exactly as in the source. -/
noncomputable def computePosteriorLogZProbability {N D K : ℕ}
    (Y : Fin N → Fin D → ℝ) (cluster_mus cluster_sigmas : Fin D → Fin K → ℝ)
    (cluster_weights : Fin K → ℝ) (decay_coef : ℝ) (E1 : Fin D → Fin K → ℝ) :
    Fin N → Fin K → F :=
  let Y_is_zero : Fin N → Fin D → Prop := fun i d => |Y i d| < 1e-6
  let zero_ps : Fin N → Fin K → F := fun i k =>
    F.nan2num (∑ d, F.mul (indF (Y_is_zero i d)) (F.log (F.fin (E1 d k))))
  let cluster_weights_matrix : Fin N → Fin K → F := fun _ k =>
    F.log (F.fin (cluster_weights k))
  let decay_matrix : Fin N → F := fun i =>
    ∑ d, F.nan2num (F.mul (indF (¬ Y_is_zero i d))
      (F.log (F.fin (1 - Real.exp (-decay_coef * (Y i d) ^ 2)))))
  let normalization_matrix : Fin N → Fin K → F := fun i k =>
    ∑ d, F.mul (indF (¬ Y_is_zero i d))
      (F.log (F.div (F.fin 1) (F.fin (Real.sqrt (2 * π * (cluster_sigmas d k) ^ 2)))))
  let probs : Fin N → Fin K → F := fun i k =>
    F.neg (∑ d, F.mul (indF (¬ Y_is_zero i d))
      (F.div (F.fin ((Y i d - cluster_mus d k) ^ 2))
             (F.fin (2 * (cluster_sigmas d k) ^ 2))))
  fun i k =>
    cluster_weights_matrix i k + zero_ps i k + normalization_matrix i k +
      decay_matrix i + probs i k

/-! ## The log-likelihood reducer (`computeLLFromW`) -/

/-- `max(W[i, :])`: the maximum of a (nonempty) row. -/
noncomputable def rowMax {K : ℕ} (row : Fin (K + 1) → ℝ) : ℝ :=
  Finset.univ.sup' Finset.univ_nonempty row

/-- The row-stabilized total log-likelihood computed by the loop of
`computeLLFromW`: per row, subtract the row maximum, exponentiate, sum, and
add back `log (sum) + max`. -/
noncomputable def stableLLSum {N K : ℕ} (W : Fin N → Fin (K + 1) → F) : ℝ :=
  ∑ i, (rowMax (fun k => (W i k).toReal) +
    Real.log (∑ k, Real.exp ((W i k).toReal - rowMax (fun k' => (W i k').toReal))))

/-- The naive total log-likelihood `Σ_i log Σ_k exp W_ik` that the claim
compares the stabilized reduction against. -/
noncomputable def naiveLLSum {N K : ℕ} (W : Fin N → Fin (K + 1) → F) : ℝ :=
  ∑ i, Real.log (∑ k, Real.exp ((W i k).toReal))

/-- `computeLLFromW` from `ZIMM.py`: `checkNoNans([W])` raises if any entry of
`W` is NaN or infinite (matrix index 0 in the list); otherwise the stabilized
log-likelihood is a real number. -/
noncomputable def computeLLFromW {N K : ℕ} (W : Fin N → Fin (K + 1) → F) :
    Except (ZimmError ℝ) ℝ :=
  if ∀ i k, (W i k).isFinite = true then .ok (stableLLSum W)
  else .error (.nanMatrix 0)

/-! ## The E-step -/

/-- `Estep` from `ZIMM.py`: computes the integral triple (propagating its
parameter-check exceptions), scores the log-posterior matrix, reduces it to
the total log-likelihood (raising if the matrix has a non-finite entry), and
row-normalizes the posterior by max-subtraction, exponentiation and division
by the row sum.  `checkNoNans([E1, EX, EX2])` and the `assert ~isinf(ll)`
never fire in this real-valued embedding (the triple is real-valued by
construction and `ll` is a real number once `W` is finite). -/
noncomputable def Estep {N D K : ℕ} (Y : Fin N → Fin D → ℝ)
    (cluster_mus cluster_sigmas : Fin D → Fin (K + 1) → ℝ)
    (cluster_weights : Fin (K + 1) → ℝ) (decay_coef : ℝ) :
    Except (ZimmError ℝ)
      ((Fin N → Fin (K + 1) → ℝ) × ℝ × (Fin D → Fin (K + 1) → ℝ) ×
        (Fin D → Fin (K + 1) → ℝ) × (Fin D → Fin (K + 1) → ℝ)) :=
  match computeIntegrals cluster_mus cluster_sigmas decay_coef with
  | .error e => .error e
  | .ok (E1, EX, EX2) =>
    let W := computePosteriorLogZProbability Y cluster_mus cluster_sigmas
      cluster_weights decay_coef E1
    match computeLLFromW W with
    | .error e => .error e
    | .ok ll =>
      let Wr : Fin N → Fin (K + 1) → ℝ := fun i k => (W i k).toReal
      let Wn : Fin N → Fin (K + 1) → ℝ := fun i k =>
        Real.exp (Wr i k - rowMax (Wr i)) /
          ∑ k', Real.exp (Wr i k' - rowMax (Wr i))
      .ok (Wn, ll, E1, EX, EX2)

/-! ## The M-step -/

/-- `decayCoefObjectiveFn` from `ZIMM.py`: the negated objective and gradient
for the decay-coefficient optimization.  `np.nan_to_num` is applied entrywise
to `log (1 - exp (-x Y²))` and to `exp (-x Y²) / (1 - exp (-x Y²))` before the
responsibility-weighted sums (with `pylab`'s `sum`, i.e. `np.sum`, reducing to
a scalar). -/
noncomputable def decayCoefObjectiveFn {N D K : ℕ} (x term_1 : ℝ)
    (Y : Fin N → Fin D → ℝ) (Y_is_zero : Fin N → Fin D → Prop)
    (W : Fin N → Fin (K + 1) → ℝ) : ℝ × ℝ :=
  let exp_Y_squared : Fin N → Fin D → ℝ := fun i d => Real.exp (-x * (Y i d) ^ 2)
  let log_exp_Y : Fin N → Fin D → ℝ := fun i d =>
    (F.nan2num (F.log (F.fin (1 - exp_Y_squared i d)))).toReal
  let exp_frac : Fin N → Fin D → ℝ := fun i d =>
    (F.nan2num (F.div (F.fin (exp_Y_squared i d))
      (F.fin (1 - exp_Y_squared i d)))).toReal
  let obj := x * term_1 +
    ∑ k, ∑ d, ∑ i, W i k * ((if Y_is_zero i d then 0 else 1) * log_exp_Y i d)
  let grad := term_1 +
    ∑ k, ∑ d, ∑ i,
      W i k * ((if Y_is_zero i d then 0 else 1) * Y i d * exp_frac i d)
  (-obj, -grad)

/-- `Mstep` from `ZIMM.py`.  The bounded 1-D minimizer (`scipy.optimize
.minimize` with `bounds = [[1e-4, inf]]`) is an external collaborator, passed
in as `mini : objective → initial guess → lower bound → optimum`; the M-step
hands it the decay objective, the current decay coefficient and the hard lower
bound `1e-4`, and takes the returned scalar as the new decay coefficient. -/
noncomputable def Mstep {N D K : ℕ} (mini : (ℝ → ℝ × ℝ) → ℝ → ℝ → ℝ)
    (Y : Fin N → Fin D → ℝ) (W : Fin N → Fin (K + 1) → ℝ)
    (EX EX2 : Fin D → Fin (K + 1) → ℝ)
    (cluster_mus cluster_sigmas : Fin D → Fin (K + 1) → ℝ)
    (cluster_weights : Fin (K + 1) → ℝ) (decay_coef : ℝ) :
    (Fin D → Fin (K + 1) → ℝ) × (Fin D → Fin (K + 1) → ℝ) ×
      (Fin (K + 1) → ℝ) × ℝ :=
  let unnormalized_cluster_weights : Fin (K + 1) → ℝ := fun k => ∑ i, W i k
  let Y_is_zero : Fin N → Fin D → Prop := fun i d => |Y i d| < 1e-6
  let nonzero_mus : Fin D → Fin (K + 1) → ℝ := fun d k =>
    ∑ i, (if Y_is_zero i d then 0 else 1) * Y i d * W i k
  let zero_mus : Fin D → Fin (K + 1) → ℝ := fun d k =>
    ∑ i, (if Y_is_zero i d then 1 else 0) * W i k * EX d k
  let new_cluster_mus : Fin D → Fin (K + 1) → ℝ := fun d k =>
    (nonzero_mus d k + zero_mus d k) / unnormalized_cluster_weights k
  let new_cluster_sigmas : Fin D → Fin (K + 1) → ℝ := fun d k =>
    Real.sqrt
      ((∑ i, (if Y_is_zero i d then 0 else 1) * W i k *
          (Y i d - new_cluster_mus d k) ^ 2) +
        (∑ i, (if Y_is_zero i d then 1 else 0) * W i k *
          (EX2 d k - 2 * new_cluster_mus d k * EX d k + new_cluster_mus d k ^ 2))) /
        unnormalized_cluster_weights k
  let new_cluster_weights : Fin (K + 1) → ℝ := fun k =>
    unnormalized_cluster_weights k / ∑ k', unnormalized_cluster_weights k'
  let term_1 : ℝ :=
    ∑ i, ∑ d, (if Y_is_zero i d then 1 else 0) * ∑ k, -W i k * EX2 d k
  let new_decay_coef : ℝ :=
    mini (fun x => decayCoefObjectiveFn x term_1 Y Y_is_zero W) decay_coef 1e-4
  (new_cluster_mus, new_cluster_sigmas, new_cluster_weights, new_decay_coef)

/-! ## The iteration controller (`fitModel`)

The sklearn/`curve_fit`-based initializer (`initalizeParams`) is an external
collaborator: `fitModel` is modelled from the initial parameter record on.
The E/M iteration loop is embedded generically in the per-iteration step
(E-step producing the log-likelihood, then M-step producing the next
parameters) and in the final E-step, and the concrete `fitModel` instantiates
the loop with `Estep`/`Mstep`. -/

/-- The parameter record threaded through the EM iteration. -/
structure ZimmParams (D K : ℕ) : Type where
  mus : Fin D → Fin (K + 1) → ℝ
  sigmas : Fin D → Fin (K + 1) → ℝ
  weights : Fin (K + 1) → ℝ
  decay : ℝ

/-- One loop iteration of `fitModel`: E-step (yielding the log-likelihood
appended to the trace) followed by M-step (yielding the next parameters).
`checkNoNans([W, EX, EX2, ...])` never fires on these real-valued matrices,
and the per-iteration `zhat`/`clusterings` diagnostics are dead local state of
the source loop (never returned), so they are not modelled. -/
noncomputable def zimmStep {N D K : ℕ} (mini : (ℝ → ℝ × ℝ) → ℝ → ℝ → ℝ)
    (Y : Fin N → Fin D → ℝ) (p : ZimmParams D K) :
    Except (ZimmError ℝ) (ℝ × ZimmParams D K) :=
  match Estep Y p.mus p.sigmas p.weights p.decay with
  | .error e => .error e
  | .ok (W, ll, _E1, EX, EX2) =>
    let r := Mstep mini Y W EX EX2 p.mus p.sigmas p.weights p.decay
    .ok (ll, ⟨r.1, r.2.1, r.2.2.1, r.2.2.2⟩)

/-- `np.argmax` over a row: the first index attaining the row maximum. -/
noncomputable def argmaxRow {K : ℕ} (row : Fin (K + 1) → ℝ) : Fin (K + 1) :=
  (Finset.univ.filter fun k => row k = rowMax row).min'
    (by
      obtain ⟨k, -, hk⟩ := Finset.exists_mem_eq_sup' Finset.univ_nonempty row
      exact ⟨k, Finset.mem_filter.2 ⟨Finset.mem_univ k, by rw [rowMax, hk]⟩⟩)

/-- The E-step performed by `fitModel` after the loop terminates: returns the
final log-likelihood (which the source discards) and the hard assignment
`zhat` (per-row argmax of the normalized posterior). -/
noncomputable def zimmFinal {N D K : ℕ} (Y : Fin N → Fin D → ℝ)
    (p : ZimmParams D K) : Except (ZimmError ℝ) (ℝ × (Fin N → Fin (K + 1))) :=
  match Estep Y p.mus p.sigmas p.weights p.decay with
  | .error e => .error e
  | .ok (W, ll, _rest) => .ok (ll, fun i => argmaxRow (W i))

/-- The `while n_iter < max_iter` loop of `fitModel`, generic in the
per-iteration step.  Each iteration runs the step, appends the log-likelihood
to the trace, and then: raises `monotonicity` if the trace has ≥ 2 entries and
the last is strictly below the previous one; breaks (normal return) if the
absolute change is below `ll_delta_thresh`; breaks if `n_iter >= max_iter`
(mirroring the source's unreachable in-loop cap check); otherwise increments
`n_iter` and continues. -/
noncomputable def emLoop {P α : Type} [LinearOrderedField α]
    (step : P → Except (ZimmError α) (α × P)) (ll_delta_thresh : α)
    (max_iter n_iter : ℕ) (p : P) (lls : List α) :
    Except (ZimmError α) (P × List α) :=
  if n_iter < max_iter then
    match step p with
    | .error e => .error e
    | .ok (ll, p') =>
      let lls' := lls ++ [ll]
      if 2 ≤ lls'.length then
        if lls'.getLastD 0 < lls'.dropLast.getLastD 0 then
          .error (.monotonicity (lls'.dropLast.getLastD 0) (lls'.getLastD 0))
        else if |lls'.getLastD 0 - lls'.dropLast.getLastD 0| < ll_delta_thresh then
          .ok (p', lls')
        else if max_iter ≤ n_iter then .ok (p', lls')
        else emLoop step ll_delta_thresh max_iter (n_iter + 1) p' lls'
      else if max_iter ≤ n_iter then .ok (p', lls')
      else emLoop step ll_delta_thresh max_iter (n_iter + 1) p' lls'
  else .ok (p, lls)
termination_by max_iter - n_iter
decreasing_by all_goals omega

/-- `fitModel` from the initial parameter record on, generic in the loop step
and in the final E-step: run the loop from `n_iter = 0` with an empty trace,
then perform one final E-step (whose log-likelihood is discarded and whose
side output `z` — the hard assignment — is returned), and return the
assignment, the final parameters and the trace. -/
noncomputable def fitModelG {P α Z : Type} [LinearOrderedField α]
    (step : P → Except (ZimmError α) (α × P))
    (finalE : P → Except (ZimmError α) (α × Z)) (max_iter : ℕ)
    (ll_delta_thresh : α) (p0 : P) : Except (ZimmError α) (Z × P × List α) :=
  match emLoop step ll_delta_thresh max_iter 0 p0 [] with
  | .error e => .error e
  | .ok (p, lls) =>
    match finalE p with
    | .error e => .error e
    | .ok (_ll, z) => .ok (z, p, lls)

/-- `fitModel` from `ZIMM.py`, from the initial parameter record on (the
sklearn-based initializer and the bounded scalar minimizer are external
collaborators). -/
noncomputable def fitModel {N D K : ℕ} (mini : (ℝ → ℝ × ℝ) → ℝ → ℝ → ℝ)
    (Y : Fin N → Fin D → ℝ) (p0 : ZimmParams D K) (max_iter : ℕ)
    (ll_delta_thresh : ℝ) :
    Except (ZimmError ℝ) ((Fin N → Fin (K + 1)) × ZimmParams D K × List ℝ) :=
  fitModelG (zimmStep mini Y) (zimmFinal Y) max_iter ll_delta_thresh p0

/-! ## Specification-side definitions

These follow the wording of the claims, to be compared against the embedded
code. -/

/-- The per-entry posterior log-probability formula asserted by the
specification: `log w_k`, plus the sum over censored dimensions of
`log E1_dk`, plus the sum over observed dimensions of the Gaussian log-density
plus the decay term `log (1 - exp (-λ y²))` — with every term that evaluates
to a non-finite value replaced by exactly `0` before summation. -/
noncomputable def claimedPosteriorEntry {N D K : ℕ} (Y : Fin N → Fin D → ℝ)
    (cluster_mus cluster_sigmas : Fin D → Fin K → ℝ)
    (cluster_weights : Fin K → ℝ) (decay_coef : ℝ) (E1 : Fin D → Fin K → ℝ)
    (i : Fin N) (k : Fin K) : ℝ :=
  Real.log (cluster_weights k) +
    (∑ d ∈ Finset.univ.filter fun d => |Y i d| < 1e-6,
      (F.log (F.fin (E1 d k))).toReal) +
    ∑ d ∈ Finset.univ.filter fun d => ¬ |Y i d| < 1e-6,
      ((F.log (F.div (F.fin 1)
          (F.fin (Real.sqrt (2 * π * (cluster_sigmas d k) ^ 2))))).toReal +
        (F.neg (F.div (F.fin ((Y i d - cluster_mus d k) ^ 2))
          (F.fin (2 * (cluster_sigmas d k) ^ 2)))).toReal +
        (F.log (F.fin (1 - Real.exp (-decay_coef * (Y i d) ^ 2)))).toReal)

/-- Conclusion of the amended claim C2: the scorer's matrix agrees entrywise
with the specification's formula (as a finite float). -/
noncomputable def posteriorMatchesClaim {N D K : ℕ} (Y : Fin N → Fin D → ℝ)
    (cluster_mus cluster_sigmas : Fin D → Fin K → ℝ)
    (cluster_weights : Fin K → ℝ) (decay_coef : ℝ)
    (E1 : Fin D → Fin K → ℝ) : Prop :=
  ∀ i k,
    computePosteriorLogZProbability Y cluster_mus cluster_sigmas
        cluster_weights decay_coef E1 i k =
      F.fin (claimedPosteriorEntry Y cluster_mus cluster_sigmas
        cluster_weights decay_coef E1 i k)

/-- Conclusion of claim C3: `computeIntegrals` succeeds with the closed-form
triple and every `E1` entry lies in `(0, 1]`. -/
noncomputable def integralsE1InUnit {D K : ℕ} (mu sigma : Fin D → Fin K → ℝ)
    (decay_coef : ℝ) : Prop :=
  computeIntegrals mu sigma decay_coef = .ok (integralTriple mu sigma decay_coef) ∧
    ∀ d k, 0 < (integralTriple mu sigma decay_coef).1 d k ∧
      (integralTriple mu sigma decay_coef).1 d k ≤ 1

/-- Conclusion of claim C5: `computeLLFromW` returns the row-stabilized
log-sum-exp total, and that total equals the naive total log-likelihood. -/
noncomputable def llReducerAgrees {N K : ℕ} (W : Fin N → Fin (K + 1) → F) : Prop :=
  computeLLFromW W = .ok (stableLLSum W) ∧ stableLLSum W = naiveLLSum W

/-- Conclusion of claim C6: the E-step succeeds and its responsibility matrix
is row-stochastic (entrywise non-negative, each row summing to 1). -/
noncomputable def estepRowStochastic {N D K : ℕ} (Y : Fin N → Fin D → ℝ)
    (cluster_mus cluster_sigmas : Fin D → Fin (K + 1) → ℝ)
    (cluster_weights : Fin (K + 1) → ℝ) (decay_coef : ℝ) : Prop :=
  ∃ r, Estep Y cluster_mus cluster_sigmas cluster_weights decay_coef = .ok r ∧
    (∀ i k, 0 ≤ r.1 i k) ∧ ∀ i, (∑ k, r.1 i k) = 1

/-- The parameter record after `j` successful loop iterations starting from
`p0` (`none` once some iteration's step fails). -/
def emParams {P α : Type} (step : P → Except (ZimmError α) (α × P)) (p0 : P) :
    ℕ → Option P
  | 0 => some p0
  | j + 1 =>
    match emParams step p0 j with
    | none => none
    | some p => (step p).toOption.map Prod.snd

/-- The log-likelihood produced by the E-step of loop iteration `j` (counting
from 0) starting from `p0`. -/
def emLL {P α : Type} (step : P → Except (ZimmError α) (α × P)) (p0 : P)
    (j : ℕ) : Option α :=
  (emParams step p0 j).bind fun p => (step p).toOption.map Prod.fst

/-- Conclusion of the amended claim C4: entry `j` of the returned trace is
exactly the log-likelihood of loop iteration `j`, and the returned parameters
are those reached after `lls.length` iterations (so the final E-step after the
loop contributes no trace entry). -/
def traceMatchesLoopSteps {P α : Type} (step : P → Except (ZimmError α) (α × P))
    (p0 : P) (lls : List α) (pf : P) : Prop :=
  (∀ j, (hj : j < lls.length) → emLL step p0 j = some (lls.get ⟨j, hj⟩)) ∧
    emParams step p0 lls.length = some pf

/-! ## Helper lemmas on idealized floats -/

theorem F.add_def (a b : F) : a + b = F.add a b := rfl

theorem F.zero_def : (0 : F) = F.fin 0 := rfl

theorem F.fin_add_fin (a b : ℝ) : F.fin a + F.fin b = F.fin (a + b) := rfl

theorem F.fin_sum {ι : Type} (s : Finset ι) (g : ι → ℝ) :
    (∑ d ∈ s, F.fin (g d)) = F.fin (∑ d ∈ s, g d) := (map_sum F.finHom g s).symm

theorem F.mul_fin_fin (a b : ℝ) : F.mul (F.fin a) (F.fin b) = F.fin (a * b) := rfl

theorem F.neg_fin (a : ℝ) : F.neg (F.fin a) = F.fin (-a) := rfl

theorem F.toReal_fin (a : ℝ) : (F.fin a).toReal = a := rfl

theorem F.nan2num_fin (a : ℝ) : F.nan2num (F.fin a) = F.fin a := rfl

theorem F.isFinite_fin (a : ℝ) : (F.fin a).isFinite = true := rfl

theorem F.log_fin_of_pos {a : ℝ} (h : 0 < a) :
    F.log (F.fin a) = F.fin (Real.log a) := by
  rw [F.log, if_neg (ne_of_gt h), if_neg (not_lt.2 h.le)]

theorem F.log_fin_zero : F.log (F.fin 0) = F.ninf := by
  rw [F.log, if_pos rfl]

theorem F.div_fin_fin {b : ℝ} (a : ℝ) (h : b ≠ 0) :
    F.div (F.fin a) (F.fin b) = F.fin (a / b) := by
  rw [F.div, if_neg h]

theorem indF_true {P : Prop} (h : P) : indF P = F.fin 1 := if_pos h

theorem indF_false {P : Prop} (h : ¬ P) : indF P = F.fin 0 := if_neg h

theorem F.mul_one_fin (v : ℝ) : F.mul (F.fin 1) (F.fin v) = F.fin v := by
  rw [F.mul_fin_fin, one_mul]

theorem F.mul_zero_fin (v : ℝ) : F.mul (F.fin 0) (F.fin v) = F.fin 0 := by
  rw [F.mul_fin_fin, zero_mul]

theorem F.mul_zero_ninf : F.mul (F.fin 0) F.ninf = F.nan := by
  rw [F.mul, if_pos rfl]

theorem F.indF_mul_fin (P : Prop) (v : ℝ) :
    F.mul (indF P) (F.fin v) = F.fin (if P then v else 0) := by
  by_cases h : P
  · rw [indF_true h, F.mul_one_fin, if_pos h]
  · rw [indF_false h, F.mul_zero_fin, if_neg h]

/-! ## Bounds on the error function -/

theorem integrable_exp_neg_sq : Integrable fun t : ℝ => Real.exp (-t ^ 2) := by
  simpa using integrable_exp_neg_mul_sq (one_pos)

theorem integral_exp_neg_sq_Ioi :
    (∫ t in Set.Ioi (0:ℝ), Real.exp (-t ^ 2)) = Real.sqrt π / 2 := by
  simpa using integral_gaussian_Ioi 1

theorem integral_exp_neg_sq_Iic :
    (∫ t in Set.Iic (0:ℝ), Real.exp (-t ^ 2)) = Real.sqrt π / 2 := by
  have h := integral_comp_neg_Iic (0:ℝ) fun t : ℝ => Real.exp (-t ^ 2)
  simp only [neg_sq, neg_zero] at h
  rw [h, integral_exp_neg_sq_Ioi]

theorem intervalIntegral_exp_neg_sq_le {x : ℝ} (hx : 0 ≤ x) :
    (∫ t in (0:ℝ)..x, Real.exp (-t ^ 2)) ≤ Real.sqrt π / 2 := by
  rw [integral_of_le hx, ← integral_exp_neg_sq_Ioi]
  refine setIntegral_mono_set integrable_exp_neg_sq.integrableOn ?_ ?_
  · exact Filter.Eventually.of_forall fun t => (Real.exp_pos _).le
  · exact HasSubset.Subset.eventuallyLE Set.Ioc_subset_Ioi_self

theorem intervalIntegral_exp_neg_sq_nonneg {x : ℝ} (hx : 0 ≤ x) :
    0 ≤ ∫ t in (0:ℝ)..x, Real.exp (-t ^ 2) :=
  intervalIntegral.integral_nonneg hx fun u _ => (Real.exp_pos _).le

theorem integral_exp_neg_sq_Iic_pos (x : ℝ) :
    0 < ∫ t in Set.Iic x, Real.exp (-t ^ 2) := by
  rw [setIntegral_pos_iff_support_of_nonneg_ae
    (Filter.Eventually.of_forall fun t => (Real.exp_pos _).le)
    integrable_exp_neg_sq.integrableOn]
  have hs : (Function.support fun t : ℝ => Real.exp (-t ^ 2)) = Set.univ := by
    ext t; simp [Function.support, Real.exp_ne_zero]
  rw [hs, Set.univ_inter, Real.volume_Iic]
  exact ENNReal.zero_lt_top

theorem intervalIntegral_exp_neg_sq_gt {x : ℝ} (hx : x < 0) :
    -(Real.sqrt π / 2) < ∫ t in (0:ℝ)..x, Real.exp (-t ^ 2) := by
  rw [intervalIntegral.integral_symm x 0, integral_of_le hx.le]
  have hsplit :
      (∫ t in Set.Iic x, Real.exp (-t ^ 2)) +
        (∫ t in Set.Ioc x (0:ℝ), Real.exp (-t ^ 2)) = Real.sqrt π / 2 := by
    rw [← integral_exp_neg_sq_Iic, ← setIntegral_union
      (Set.Iic_disjoint_Ioc le_rfl) measurableSet_Ioc
      integrable_exp_neg_sq.integrableOn integrable_exp_neg_sq.integrableOn,
      Set.Iic_union_Ioc_eq_Iic hx.le]
  have hpos := integral_exp_neg_sq_Iic_pos x
  linarith

theorem erf_le_one (x : ℝ) : erf x ≤ 1 := by
  have hπ : 0 < Real.sqrt π := Real.sqrt_pos.2 Real.pi_pos
  rcases le_or_lt 0 x with hx | hx
  · have h := intervalIntegral_exp_neg_sq_le hx
    have h2 : erf x ≤ 2 / Real.sqrt π * (Real.sqrt π / 2) :=
      mul_le_mul_of_nonneg_left h (by positivity)
    calc erf x ≤ 2 / Real.sqrt π * (Real.sqrt π / 2) := h2
    _ = 1 := by field_simp
  · have h : (∫ t in (0:ℝ)..x, Real.exp (-t ^ 2)) ≤ 0 := by
      rw [intervalIntegral.integral_symm x 0]
      have hn : 0 ≤ ∫ t in x..(0:ℝ), Real.exp (-t ^ 2) :=
        intervalIntegral.integral_nonneg hx.le fun u _ => (Real.exp_pos (-u ^ 2)).le
      linarith
    have : erf x ≤ 0 := mul_nonpos_of_nonneg_of_nonpos (by positivity) h
    linarith

theorem neg_one_lt_erf (x : ℝ) : -1 < erf x := by
  have hπ : 0 < Real.sqrt π := Real.sqrt_pos.2 Real.pi_pos
  rcases le_or_lt 0 x with hx | hx
  · have h : 0 ≤ erf x :=
      mul_nonneg (by positivity) (intervalIntegral_exp_neg_sq_nonneg hx)
    linarith
  · have h := intervalIntegral_exp_neg_sq_gt hx
    have h2 : 2 / Real.sqrt π * (-(Real.sqrt π / 2)) <
        2 / Real.sqrt π * ∫ t in (0:ℝ)..x, Real.exp (-t ^ 2) :=
      mul_lt_mul_of_pos_left h (by positivity)
    have h3 : 2 / Real.sqrt π * (-(Real.sqrt π / 2)) = -1 := by
      field_simp
      ring
    rw [erf]
    linarith

/-! ## Bounds on the `E1` integral -/

theorem aval_pos {sigma decay_coef : ℝ} (hs : 0 < sigma) (hd : 0 < decay_coef) :
    0 < aval sigma decay_coef := by
  have h2 : 0 < sigma ^ 2 := by positivity
  exact div_pos (by nlinarith) (by positivity)

theorem Cval_pos {mu sigma decay_coef : ℝ} (hs : 0 < sigma)
    (hd : 0 < decay_coef) : 0 < Cval mu sigma decay_coef := by
  have ha := aval_pos hs hd
  have hsq : 0 < Real.sqrt (aval sigma decay_coef) := Real.sqrt_pos.2 ha
  have hπ : 0 < Real.sqrt π := Real.sqrt_pos.2 Real.pi_pos
  have herf := neg_one_lt_erf
    (bval mu sigma decay_coef * Real.sqrt (aval sigma decay_coef))
  have hD : 0 < Dval mu sigma decay_coef := Real.exp_pos _
  exact div_pos (mul_pos (mul_pos hD hπ) (by linarith)) (by positivity)

theorem E1val_pos {mu sigma decay_coef : ℝ} (hs : 0 < sigma)
    (hd : 0 < decay_coef) : 0 < E1val mu sigma decay_coef := by
  have h2π : 0 < Real.sqrt (2 * π) := Real.sqrt_pos.2 (by positivity)
  exact div_pos (Cval_pos hs hd) (by positivity)

theorem Dval_le_one {mu sigma decay_coef : ℝ} (hs : 0 < sigma)
    (hd : 0 < decay_coef) : Dval mu sigma decay_coef ≤ 1 := by
  have h2 : 0 < sigma ^ 2 := by positivity
  have hu : (1:ℝ) ≤ 1 + 2 * sigma ^ 2 * decay_coef := by nlinarith
  have hu0 : (0:ℝ) < 1 + 2 * sigma ^ 2 * decay_coef := by linarith
  have hb : bval mu sigma decay_coef = mu / (1 + 2 * sigma ^ 2 * decay_coef) := by
    rw [bval, aval]
    field_simp
    ring
  have hab : aval sigma decay_coef * bval mu sigma decay_coef ^ 2 =
      mu ^ 2 / (2 * sigma ^ 2) / (1 + 2 * sigma ^ 2 * decay_coef) := by
    rw [hb, aval]
    field_simp
    ring
  rw [Dval, hab]
  have hle : mu ^ 2 / (2 * sigma ^ 2) / (1 + 2 * sigma ^ 2 * decay_coef) ≤
      mu ^ 2 / (2 * sigma ^ 2) := div_le_self (by positivity) hu
  calc Real.exp (-mu ^ 2 / (2 * sigma ^ 2) +
        mu ^ 2 / (2 * sigma ^ 2) / (1 + 2 * sigma ^ 2 * decay_coef)) ≤
      Real.exp 0 := Real.exp_le_exp.2 (by rw [neg_div]; linarith)
    _ = 1 := Real.exp_zero

theorem E1val_le_one {mu sigma decay_coef : ℝ} (hs : 0 < sigma)
    (hd : 0 < decay_coef) : E1val mu sigma decay_coef ≤ 1 := by
  have h2 : 0 < sigma ^ 2 := by positivity
  have ha := aval_pos hs hd
  have hsa : 0 < Real.sqrt (aval sigma decay_coef) := Real.sqrt_pos.2 ha
  have hπ : 0 < Real.sqrt π := Real.sqrt_pos.2 Real.pi_pos
  have h2π : 0 < Real.sqrt (2 * π) := Real.sqrt_pos.2 (by positivity)
  have hD : 0 < Dval mu sigma decay_coef := Real.exp_pos _
  have hD1 := @Dval_le_one mu sigma decay_coef hs hd
  have herf := erf_le_one
    (bval mu sigma decay_coef * Real.sqrt (aval sigma decay_coef))
  rw [E1val, div_le_one (by positivity)]
  have hC1 : Cval mu sigma decay_coef ≤
      Dval mu sigma decay_coef * Real.sqrt π /
        Real.sqrt (aval sigma decay_coef) := by
    rw [Cval]
    have hnum : Dval mu sigma decay_coef * Real.sqrt π *
        (erf (bval mu sigma decay_coef * Real.sqrt (aval sigma decay_coef)) + 1) ≤
        Dval mu sigma decay_coef * Real.sqrt π * 2 :=
      mul_le_mul_of_nonneg_left (by linarith) (by positivity)
    calc Dval mu sigma decay_coef * Real.sqrt π *
        (erf (bval mu sigma decay_coef * Real.sqrt (aval sigma decay_coef)) + 1) /
          (2 * Real.sqrt (aval sigma decay_coef)) ≤
        Dval mu sigma decay_coef * Real.sqrt π * 2 /
          (2 * Real.sqrt (aval sigma decay_coef)) := by
          exact div_le_div_of_nonneg_right hnum (by positivity) |>.trans_eq rfl
      _ = Dval mu sigma decay_coef * Real.sqrt π /
          Real.sqrt (aval sigma decay_coef) := by
          field_simp
          ring
  have hC2 : Dval mu sigma decay_coef * Real.sqrt π /
      Real.sqrt (aval sigma decay_coef) ≤
      Real.sqrt π / Real.sqrt (aval sigma decay_coef) := by
    apply div_le_div_of_nonneg_right _ hsa.le
    nlinarith
  have hkey : Real.sqrt π / Real.sqrt (aval sigma decay_coef) ≤
      Real.sqrt (2 * π) * sigma := by
    rw [div_le_iff hsa]
    have hprod : Real.sqrt (2 * π * sigma ^ 2 * aval sigma decay_coef) =
        Real.sqrt (2 * π) * sigma * Real.sqrt (aval sigma decay_coef) := by
      rw [Real.sqrt_mul (by positivity) (aval sigma decay_coef),
        Real.sqrt_mul (by positivity) (sigma ^ 2), Real.sqrt_sq hs.le]
    rw [← hprod]
    have harg : 2 * π * sigma ^ 2 * aval sigma decay_coef =
        π * (1 + 2 * sigma ^ 2 * decay_coef) := by
      rw [aval]
      field_simp
      ring
    rw [harg]
    apply Real.sqrt_le_sqrt
    have hππ : 0 < π * (2 * sigma ^ 2 * decay_coef) := by positivity
    nlinarith
  linarith

/-! ## Claim C3: `E1 ∈ (0, 1]` -/

/-- Claim C3: for every `mu`, every strictly positive `sigma`, and every
strictly positive `lambda`, `computeIntegrals` succeeds and every `E1` value
it returns satisfies `0 < E1 ≤ 1`. -/
theorem claim_C3_E1_in_unit {D K : ℕ} (mu sigma : Fin D → Fin K → ℝ)
    (decay_coef : ℝ) (hs : ∀ d k, 0 < sigma d k) (hd : 0 < decay_coef) :
    integralsE1InUnit mu sigma decay_coef := by
  constructor
  · rw [computeIntegrals, if_neg (not_not_intro hs), if_neg (not_not_intro hd)]
  · intro d k
    exact ⟨E1val_pos (hs d k) hd, E1val_le_one (hs d k) hd⟩

/-- Witness for C3 at `mu = 0`, `sigma = 1`, `lambda = 1` (1×1 matrices). -/
theorem claim_C3_E1_in_unit_witness :
    integralsE1InUnit (D := 1) (K := 1) (fun _ _ => 0) (fun _ _ => 1) 1 :=
  claim_C3_E1_in_unit _ _ _ (fun _ _ => one_pos) one_pos

/-! ## Claim C9: the `computeIntegrals` parameter checks -/

/-- Claim C9: `computeIntegrals` raises if some `sigma` entry is non-positive,
reporting the count of strictly negative entries and the count of near-zero
entries; with all `sigma` positive it fails if `lambda` is non-positive; and
with all `sigma` positive and `lambda > 0` neither check raises. -/
theorem claim_C9_parameter_checks {D K : ℕ} (mu sigma : Fin D → Fin K → ℝ)
    (decay_coef : ℝ) :
    (¬ (∀ d k, 0 < sigma d k) →
      computeIntegrals mu sigma decay_coef =
        .error (.invalidSigma (sigmaNegCount sigma) (sigmaNearZeroCount sigma))) ∧
    ((∀ d k, 0 < sigma d k) → decay_coef ≤ 0 →
      computeIntegrals mu sigma decay_coef = .error .lambdaNonPositive) ∧
    ((∀ d k, 0 < sigma d k) → 0 < decay_coef →
      computeIntegrals mu sigma decay_coef =
        .ok (integralTriple mu sigma decay_coef)) := by
  refine ⟨fun h => ?_, fun hs hd => ?_, fun hs hd => ?_⟩
  · rw [computeIntegrals, if_pos h]
  · rw [computeIntegrals, if_neg (not_not_intro hs), if_pos (not_lt.2 hd)]
  · rw [computeIntegrals, if_neg (not_not_intro hs), if_neg (not_not_intro hd)]

/-- Witness for C9: a negative `sigma` raises with counts (1 negative, 0
near-zero); `lambda = 0` raises the assertion; valid parameters return the
triple. -/
theorem claim_C9_parameter_checks_witness :
    computeIntegrals (D := 1) (K := 1) (fun _ _ => 0) (fun _ _ => -1) 1 =
        .error (.invalidSigma 1 0) ∧
      computeIntegrals (D := 1) (K := 1) (fun _ _ => 0) (fun _ _ => 1) 0 =
        .error .lambdaNonPositive ∧
      computeIntegrals (D := 1) (K := 1) (fun _ _ => 0) (fun _ _ => 1) 1 =
        .ok (integralTriple (fun _ _ => 0) (fun _ _ => 1) 1) := by
  have h1 := (claim_C9_parameter_checks (D := 1) (K := 1)
    (fun _ _ => 0) (fun _ _ => -1) 1).1 (by
      intro h
      have := h 0 0
      norm_num at this)
  have hneg : sigmaNegCount (D := 1) (K := 1) (fun _ _ => -1) = 1 := by
    rw [sigmaNegCount, Finset.filter_true_of_mem fun x _ => by norm_num]
    simp
  have hnz : sigmaNearZeroCount (D := 1) (K := 1) (fun _ _ => -1) = 0 := by
    rw [sigmaNearZeroCount, Finset.filter_false_of_mem fun x _ => by norm_num]
    simp
  rw [hneg, hnz] at h1
  refine ⟨h1, ?_, ?_⟩
  · exact (claim_C9_parameter_checks (D := 1) (K := 1)
      (fun _ _ => 0) (fun _ _ => 1) 0).2.1 (fun _ _ => one_pos) le_rfl
  · exact (claim_C9_parameter_checks (D := 1) (K := 1)
      (fun _ _ => 0) (fun _ _ => 1) 1).2.2 (fun _ _ => one_pos) one_pos

/-! ## Claim C5: the log-likelihood reducer -/

/-- Claim C5: on a matrix of finite entries, `computeLLFromW` returns the
row-stabilized total `Σ_i (max_k W_ik + log Σ_k exp (W_ik - max_k W_ik))`,
and this equals the naive total log-likelihood `Σ_i log Σ_k exp W_ik`. -/
theorem claim_C5_ll_reducer {N K : ℕ} (W : Fin N → Fin (K + 1) → F)
    (h : ∀ i k, (W i k).isFinite = true) : llReducerAgrees W := by
  constructor
  · rw [computeLLFromW, if_pos h]
  · rw [stableLLSum, naiveLLSum]
    refine Finset.sum_congr rfl fun i _ => ?_
    have hpos : 0 < ∑ k, Real.exp ((W i k).toReal) :=
      Finset.sum_pos (fun k _ => Real.exp_pos _) Finset.univ_nonempty
    have hsum : (∑ k, Real.exp ((W i k).toReal - rowMax fun k' => (W i k').toReal)) =
        (∑ k, Real.exp ((W i k).toReal)) *
          Real.exp (-(rowMax fun k' => (W i k').toReal)) := by
      rw [Finset.sum_mul]
      refine Finset.sum_congr rfl fun k _ => ?_
      rw [← Real.exp_add]
      ring_nf
    rw [hsum, Real.log_mul (ne_of_gt hpos) (Real.exp_ne_zero _), Real.log_exp]
    ring

/-- Witness for C5 on the all-zero finite 1×1 matrix. -/
theorem claim_C5_ll_reducer_witness :
    llReducerAgrees (N := 1) (K := 0) (fun _ _ => F.fin 0) :=
  claim_C5_ll_reducer _ fun _ _ => rfl

/-! ## Evaluating the responsibility scorer on valid parameters -/

theorem computePosterior_entry {N D K : ℕ} (Y : Fin N → Fin D → ℝ)
    (cluster_mus cluster_sigmas : Fin D → Fin K → ℝ)
    (cluster_weights : Fin K → ℝ) (decay_coef : ℝ) (E1 : Fin D → Fin K → ℝ)
    (i : Fin N) (k : Fin K) :
    computePosteriorLogZProbability Y cluster_mus cluster_sigmas
        cluster_weights decay_coef E1 i k =
      F.log (F.fin (cluster_weights k)) +
        F.nan2num (∑ d, F.mul (indF (|Y i d| < 1e-6)) (F.log (F.fin (E1 d k)))) +
        (∑ d, F.mul (indF (¬ |Y i d| < 1e-6))
          (F.log (F.div (F.fin 1)
            (F.fin (Real.sqrt (2 * π * (cluster_sigmas d k) ^ 2)))))) +
        (∑ d, F.nan2num (F.mul (indF (¬ |Y i d| < 1e-6))
          (F.log (F.fin (1 - Real.exp (-decay_coef * (Y i d) ^ 2)))))) +
        F.neg (∑ d, F.mul (indF (¬ |Y i d| < 1e-6))
          (F.div (F.fin ((Y i d - cluster_mus d k) ^ 2))
                 (F.fin (2 * (cluster_sigmas d k) ^ 2)))) := rfl

theorem sum_indF_mul {D : ℕ} (P : Fin D → Prop) (g : Fin D → F) (v : Fin D → ℝ)
    (h : ∀ d, g d = F.fin (v d)) :
    (∑ d, F.mul (indF (P d)) (g d)) = F.fin (∑ d, if P d then v d else 0) := by
  rw [← F.fin_sum]
  refine Finset.sum_congr rfl fun d _ => ?_
  rw [h d, F.indF_mul_fin]

theorem sum_indF_mul_not {D : ℕ} (P : Fin D → Prop) (g : Fin D → F)
    (v : Fin D → ℝ) (h : ∀ d, g d = F.fin (v d)) :
    (∑ d, F.mul (indF (¬ P d)) (g d)) = F.fin (∑ d, if P d then 0 else v d) := by
  rw [← F.fin_sum]
  refine Finset.sum_congr rfl fun d _ => ?_
  rw [h d, F.indF_mul_fin]
  by_cases hp : P d
  · rw [if_neg (not_not_intro hp), if_pos hp]
  · rw [if_pos hp, if_neg hp]

theorem decay_term_eq {lam y : ℝ} (hlam : 0 < lam) :
    F.nan2num (F.mul (indF (¬ |y| < 1e-6))
        (F.log (F.fin (1 - Real.exp (-lam * y ^ 2))))) =
      F.fin (if |y| < 1e-6 then 0 else Real.log (1 - Real.exp (-lam * y ^ 2))) := by
  have hobs : ∀ yy : ℝ, yy ≠ 0 → 0 < 1 - Real.exp (-lam * yy ^ 2) := by
    intro yy hyy
    have h1 : Real.exp (-lam * yy ^ 2) < 1 := by
      rw [Real.exp_lt_one_iff]
      have : 0 < yy ^ 2 := by positivity
      nlinarith
    linarith
  by_cases h : ¬ |y| < 1e-6
  · have hy : y ≠ 0 := by
      intro hy0
      rw [hy0] at h
      norm_num at h
    rw [indF_true h, F.log_fin_of_pos (hobs y hy), F.mul_one_fin, F.nan2num_fin,
      if_neg h]
  · rw [indF_false h, if_pos (not_not.1 h)]
    by_cases hy : y = 0
    · have hzero : 1 - Real.exp (-lam * y ^ 2) = 0 := by
        rw [hy]
        norm_num
      rw [hzero, F.log_fin_zero, F.mul_zero_ninf]
      rfl
    · rw [F.log_fin_of_pos (hobs y hy), F.mul_zero_fin, F.nan2num_fin]

theorem computePosterior_entry_fin {N D K : ℕ} (Y : Fin N → Fin D → ℝ)
    (cluster_mus cluster_sigmas : Fin D → Fin K → ℝ)
    (cluster_weights : Fin K → ℝ) (decay_coef : ℝ) (E1 : Fin D → Fin K → ℝ)
    (i : Fin N) (k : Fin K) (hw : 0 < cluster_weights k)
    (hE1 : ∀ d, 0 < E1 d k) (hs : ∀ d, 0 < cluster_sigmas d k)
    (hlam : 0 < decay_coef) :
    computePosteriorLogZProbability Y cluster_mus cluster_sigmas
        cluster_weights decay_coef E1 i k =
      F.fin (Real.log (cluster_weights k) +
        (∑ d, if |Y i d| < 1e-6 then Real.log (E1 d k) else 0) +
        (∑ d, if |Y i d| < 1e-6 then 0 else
          Real.log (1 / Real.sqrt (2 * π * (cluster_sigmas d k) ^ 2))) +
        (∑ d, if |Y i d| < 1e-6 then 0 else
          Real.log (1 - Real.exp (-decay_coef * (Y i d) ^ 2))) +
        -(∑ d, if |Y i d| < 1e-6 then 0 else
          (Y i d - cluster_mus d k) ^ 2 / (2 * (cluster_sigmas d k) ^ 2))) := by
  rw [computePosterior_entry]
  have hsq : ∀ d, (0:ℝ) < Real.sqrt (2 * π * (cluster_sigmas d k) ^ 2) := by
    intro d
    have := hs d
    have hπ := Real.pi_pos
    apply Real.sqrt_pos.2
    positivity
  rw [F.log_fin_of_pos hw]
  rw [sum_indF_mul _ _ (fun d => Real.log (E1 d k))
    (fun d => F.log_fin_of_pos (hE1 d)), F.nan2num_fin]
  rw [sum_indF_mul_not _ _
    (fun d => Real.log (1 / Real.sqrt (2 * π * (cluster_sigmas d k) ^ 2)))
    (fun d => by
      rw [F.div_fin_fin 1 (ne_of_gt (hsq d)),
        F.log_fin_of_pos (one_div_pos.2 (hsq d))])]
  rw [show (∑ d, F.nan2num (F.mul (indF (¬ |Y i d| < 1e-6))
      (F.log (F.fin (1 - Real.exp (-decay_coef * (Y i d) ^ 2)))))) =
    F.fin (∑ d, if |Y i d| < 1e-6 then 0 else
      Real.log (1 - Real.exp (-decay_coef * (Y i d) ^ 2))) by
    rw [← F.fin_sum]
    exact Finset.sum_congr rfl fun d _ => decay_term_eq hlam]
  rw [sum_indF_mul_not _ _
    (fun d => (Y i d - cluster_mus d k) ^ 2 / (2 * (cluster_sigmas d k) ^ 2))
    (fun d => F.div_fin_fin _ (by have := hs d; positivity))]
  rw [F.neg_fin, F.fin_add_fin, F.fin_add_fin, F.fin_add_fin, F.fin_add_fin]

/-! ## Claim C2: the responsibility scorer versus the spec formula -/

/-- Amended claim C2: with strictly positive weights, `sigma`, `E1` and
`lambda`, each entry of the scorer's matrix equals the specification's
formula.  (The counterexample below shows the claim fails for arbitrary
inputs: the zero-mass substitution is applied after the inner product, and
`np.nan_to_num` sends `-∞` to `-FMAX`, not to `0`.) -/
theorem claim_C2_amended_scorer_matches {N D K : ℕ} (Y : Fin N → Fin D → ℝ)
    (cluster_mus cluster_sigmas : Fin D → Fin K → ℝ)
    (cluster_weights : Fin K → ℝ) (decay_coef : ℝ) (E1 : Fin D → Fin K → ℝ)
    (hw : ∀ k, 0 < cluster_weights k) (hE1 : ∀ d k, 0 < E1 d k)
    (hs : ∀ d k, 0 < cluster_sigmas d k) (hlam : 0 < decay_coef) :
    posteriorMatchesClaim Y cluster_mus cluster_sigmas cluster_weights
      decay_coef E1 := by
  intro i k
  rw [computePosterior_entry_fin Y cluster_mus cluster_sigmas cluster_weights
    decay_coef E1 i k (hw k) (fun d => hE1 d k) (fun d => hs d k) hlam]
  rw [claimedPosteriorEntry]
  congr 1
  have hsq : ∀ d, (0:ℝ) < Real.sqrt (2 * π * (cluster_sigmas d k) ^ 2) := by
    intro d
    have := hs d k
    have hπ := Real.pi_pos
    apply Real.sqrt_pos.2
    positivity
  have h1 : (∑ d ∈ Finset.univ.filter fun d => |Y i d| < 1e-6,
      (F.log (F.fin (E1 d k))).toReal) =
      ∑ d, if |Y i d| < 1e-6 then Real.log (E1 d k) else 0 := by
    rw [Finset.sum_filter]
    refine Finset.sum_congr rfl fun d _ => ?_
    rw [F.log_fin_of_pos (hE1 d k), F.toReal_fin]
  have h2 : (∑ d ∈ Finset.univ.filter fun d => ¬ |Y i d| < 1e-6,
      ((F.log (F.div (F.fin 1)
          (F.fin (Real.sqrt (2 * π * (cluster_sigmas d k) ^ 2))))).toReal +
        (F.neg (F.div (F.fin ((Y i d - cluster_mus d k) ^ 2))
          (F.fin (2 * (cluster_sigmas d k) ^ 2)))).toReal +
        (F.log (F.fin (1 - Real.exp (-decay_coef * (Y i d) ^ 2)))).toReal)) =
      (∑ d, if |Y i d| < 1e-6 then 0 else
        Real.log (1 / Real.sqrt (2 * π * (cluster_sigmas d k) ^ 2))) +
      -(∑ d, if |Y i d| < 1e-6 then 0 else
        (Y i d - cluster_mus d k) ^ 2 / (2 * (cluster_sigmas d k) ^ 2)) +
      (∑ d, if |Y i d| < 1e-6 then 0 else
        Real.log (1 - Real.exp (-decay_coef * (Y i d) ^ 2))) := by
    have hterm : ∀ d ∈ Finset.univ.filter fun d => ¬ |Y i d| < 1e-6,
        ((F.log (F.div (F.fin 1)
            (F.fin (Real.sqrt (2 * π * (cluster_sigmas d k) ^ 2))))).toReal +
          (F.neg (F.div (F.fin ((Y i d - cluster_mus d k) ^ 2))
            (F.fin (2 * (cluster_sigmas d k) ^ 2)))).toReal +
          (F.log (F.fin (1 - Real.exp (-decay_coef * (Y i d) ^ 2)))).toReal) =
        (Real.log (1 / Real.sqrt (2 * π * (cluster_sigmas d k) ^ 2)) +
          -((Y i d - cluster_mus d k) ^ 2 / (2 * (cluster_sigmas d k) ^ 2)) +
          Real.log (1 - Real.exp (-decay_coef * (Y i d) ^ 2))) := by
      intro d hd
      have hobs : ¬ |Y i d| < 1e-6 := (Finset.mem_filter.1 hd).2
      have hy : Y i d ≠ 0 := by
        intro hy0
        rw [hy0] at hobs
        norm_num at hobs
      have hdecay : 0 < 1 - Real.exp (-decay_coef * (Y i d) ^ 2) := by
        have hlt : Real.exp (-decay_coef * (Y i d) ^ 2) < 1 := by
          rw [Real.exp_lt_one_iff]
          have : 0 < (Y i d) ^ 2 := by positivity
          nlinarith
        linarith
      rw [F.div_fin_fin 1 (ne_of_gt (hsq d)),
        F.log_fin_of_pos (one_div_pos.2 (hsq d)),
        F.div_fin_fin _ (by have := hs d k; positivity), F.neg_fin,
        F.log_fin_of_pos hdecay, F.toReal_fin, F.toReal_fin, F.toReal_fin]
    rw [Finset.sum_congr rfl hterm]
    rw [Finset.sum_add_distrib, Finset.sum_add_distrib]
    have hconv : ∀ v : Fin D → ℝ,
        (∑ d ∈ Finset.univ.filter fun d => ¬ |Y i d| < 1e-6, v d) =
        ∑ d, if |Y i d| < 1e-6 then 0 else v d := by
      intro v
      rw [Finset.sum_filter]
      refine Finset.sum_congr rfl fun d _ => ?_
      by_cases h : |Y i d| < 1e-6
      · rw [if_neg (not_not_intro h), if_pos h]
      · rw [if_pos h, if_neg h]
    rw [hconv, hconv fun d => Real.log (1 - Real.exp (-decay_coef * (Y i d) ^ 2)),
      show (∑ d ∈ Finset.univ.filter fun d => ¬ |Y i d| < 1e-6,
        -((Y i d - cluster_mus d k) ^ 2 / (2 * (cluster_sigmas d k) ^ 2))) =
      -(∑ d, if |Y i d| < 1e-6 then 0 else
        (Y i d - cluster_mus d k) ^ 2 / (2 * (cluster_sigmas d k) ^ 2)) by
      rw [← Finset.sum_neg_distrib, hconv]
      refine Finset.sum_congr rfl fun d _ => ?_
      by_cases h : |Y i d| < 1e-6
      · rw [if_pos h, if_pos h, neg_zero]
      · rw [if_neg h, if_neg h]]
  rw [h1, h2]
  ring

theorem F.mul_one_ninf : F.mul (F.fin 1) F.ninf = F.ninf := by
  rw [F.mul, if_neg one_ne_zero, if_pos one_pos]

theorem F.nan2num_ninf : F.nan2num F.ninf = F.fin (-F.FMAX) := rfl

theorem F.nan2num_nan : F.nan2num F.nan = F.fin 0 := rfl

/-- Witness for the amended claim C2 at strictly positive parameters
(`Y = 1`, `mu = 0`, `sigma = 1`, `w = 1`, `lambda = 1`, `E1 = 1/2`). -/
theorem claim_C2_amended_scorer_matches_witness :
    posteriorMatchesClaim (N := 1) (D := 1) (K := 1) (fun _ _ => 1)
      (fun _ _ => 0) (fun _ _ => 1) (fun _ => 1) 1 (fun _ _ => 1 / 2) :=
  claim_C2_amended_scorer_matches _ _ _ _ _ _ (fun _ => one_pos)
    (fun _ _ => by norm_num) (fun _ _ => one_pos) one_pos

/-- Counterexample to claim C2 as stated: with a censored observation
(`Y = 0`), unit weight, `mu = 0`, `sigma = 1`, `lambda = 1` and `E1 = 0`, the
code produces `-FMAX` (because `np.nan_to_num` is applied after the inner
product and maps `-∞` to `-FMAX`), while the claimed formula — which replaces
the non-finite `log E1` term by `0` before summation — yields `0`. -/
theorem claim_C2_counterexample :
    computePosteriorLogZProbability (N := 1) (D := 1) (K := 1) (fun _ _ => 0)
        (fun _ _ => 0) (fun _ _ => 1) (fun _ => 1) 1 (fun _ _ => 0) 0 0 =
      F.fin (-F.FMAX) ∧
    claimedPosteriorEntry (N := 1) (D := 1) (K := 1) (fun _ _ => 0)
        (fun _ _ => 0) (fun _ _ => 1) (fun _ => 1) 1 (fun _ _ => 0) 0 0 = 0 ∧
    -F.FMAX ≠ (0:ℝ) := by
  have hz : |(0:ℝ)| < 1e-6 := by norm_num
  have hdecay0 : (1:ℝ) - Real.exp (-1 * (0:ℝ) ^ 2) = 0 := by
    norm_num
  have hsqpos : (0:ℝ) < Real.sqrt (2 * π * (1:ℝ) ^ 2) := by
    have := Real.pi_pos
    apply Real.sqrt_pos.2
    positivity
  refine ⟨?_, ?_, ?_⟩
  · rw [computePosterior_entry]
    simp only [Fin.sum_univ_one]
    rw [indF_true hz, indF_false (not_not_intro hz), F.log_fin_zero,
      F.mul_one_ninf, F.nan2num_ninf, hdecay0, F.log_fin_zero, F.mul_zero_ninf,
      F.nan2num_nan, F.log_fin_of_pos one_pos, Real.log_one,
      F.div_fin_fin _ (ne_of_gt hsqpos),
      F.log_fin_of_pos (one_div_pos.2 hsqpos), F.mul_zero_fin,
      F.div_fin_fin _ (by norm_num : (2:ℝ) * 1 ^ 2 ≠ 0), F.mul_zero_fin,
      F.neg_fin, F.fin_add_fin, F.fin_add_fin, F.fin_add_fin, F.fin_add_fin]
    norm_num
  · rw [claimedPosteriorEntry]
    have hfz : (Finset.univ.filter fun d : Fin 1 =>
        |(fun _ _ => (0:ℝ)) (0 : Fin 1) d| < 1e-6) = Finset.univ :=
      Finset.filter_true_of_mem fun d _ => hz
    have hfnz : (Finset.univ.filter fun d : Fin 1 =>
        ¬ |(fun _ _ => (0:ℝ)) (0 : Fin 1) d| < 1e-6) = ∅ :=
      Finset.filter_false_of_mem fun d _ => not_not_intro hz
    rw [hfz, hfnz, Finset.sum_empty, Fin.sum_univ_one, F.log_fin_zero]
    norm_num [F.toReal]
  · rw [F.FMAX]
    norm_num

/-! ## Claims C6 and C8: the E-step -/

theorem computeIntegrals_ok {D K : ℕ} {mu sigma : Fin D → Fin K → ℝ}
    {decay_coef : ℝ} (hs : ∀ d k, 0 < sigma d k) (hd : 0 < decay_coef) :
    computeIntegrals mu sigma decay_coef =
      .ok (integralTriple mu sigma decay_coef) := by
  rw [computeIntegrals, if_neg (not_not_intro hs), if_neg (not_not_intro hd)]

/-- Claim C6: on finite data with valid parameters (`sigma > 0`,
`lambda > 0`, positive weights), the E-step succeeds and returns a
row-stochastic responsibility matrix. -/
theorem claim_C6_estep_row_stochastic {N D K : ℕ} (Y : Fin N → Fin D → ℝ)
    (cluster_mus cluster_sigmas : Fin D → Fin (K + 1) → ℝ)
    (cluster_weights : Fin (K + 1) → ℝ) (decay_coef : ℝ)
    (hs : ∀ d k, 0 < cluster_sigmas d k) (hd : 0 < decay_coef)
    (hw : ∀ k, 0 < cluster_weights k) :
    estepRowStochastic Y cluster_mus cluster_sigmas cluster_weights decay_coef := by
  have hint := @computeIntegrals_ok _ _ cluster_mus _ _ hs hd
  have hE1 : ∀ d k,
      0 < E1val (cluster_mus d k) (cluster_sigmas d k) decay_coef :=
    fun d k => E1val_pos (hs d k) hd
  have hfin : ∀ i k,
      ((computePosteriorLogZProbability Y cluster_mus cluster_sigmas
        cluster_weights decay_coef fun d k =>
          E1val (cluster_mus d k) (cluster_sigmas d k) decay_coef) i k).isFinite
        = true := by
    intro i k
    rw [computePosterior_entry_fin Y cluster_mus cluster_sigmas cluster_weights
      decay_coef _ i k (hw k) (fun d => hE1 d k) (fun d => hs d k) hd]
    rfl
  have hll : computeLLFromW (computePosteriorLogZProbability Y cluster_mus
      cluster_sigmas cluster_weights decay_coef fun d k =>
        E1val (cluster_mus d k) (cluster_sigmas d k) decay_coef) =
      .ok (stableLLSum (computePosteriorLogZProbability Y cluster_mus
        cluster_sigmas cluster_weights decay_coef fun d k =>
          E1val (cluster_mus d k) (cluster_sigmas d k) decay_coef)) := by
    rw [computeLLFromW, if_pos hfin]
  rw [estepRowStochastic, Estep, hint, integralTriple]
  simp only [hll]
  refine ⟨_, rfl, fun i k => ?_, fun i => ?_⟩
  · have hpos : (0:ℝ) < ∑ k', Real.exp
        ((computePosteriorLogZProbability Y cluster_mus cluster_sigmas
          cluster_weights decay_coef (fun d k =>
            E1val (cluster_mus d k) (cluster_sigmas d k) decay_coef) i k').toReal -
          rowMax fun k' => (computePosteriorLogZProbability Y cluster_mus
            cluster_sigmas cluster_weights decay_coef (fun d k =>
              E1val (cluster_mus d k) (cluster_sigmas d k) decay_coef) i k').toReal) :=
      Finset.sum_pos (fun _ _ => Real.exp_pos _) Finset.univ_nonempty
    exact div_nonneg (Real.exp_pos _).le hpos.le
  · have hpos : (0:ℝ) < ∑ k', Real.exp
        ((computePosteriorLogZProbability Y cluster_mus cluster_sigmas
          cluster_weights decay_coef (fun d k =>
            E1val (cluster_mus d k) (cluster_sigmas d k) decay_coef) i k').toReal -
          rowMax fun k' => (computePosteriorLogZProbability Y cluster_mus
            cluster_sigmas cluster_weights decay_coef (fun d k =>
              E1val (cluster_mus d k) (cluster_sigmas d k) decay_coef) i k').toReal) :=
      Finset.sum_pos (fun _ _ => Real.exp_pos _) Finset.univ_nonempty
    rw [← Finset.sum_div, div_self (ne_of_gt hpos)]

/-- Witness for C6 at `Y = 1`, `mu = 0`, `sigma = 1`, `w = 1`, `lambda = 1`
(one sample, one dimension, one cluster). -/
theorem claim_C6_estep_row_stochastic_witness :
    estepRowStochastic (N := 1) (D := 1) (K := 0) (fun _ _ => 1) (fun _ _ => 0)
      (fun _ _ => 1) (fun _ => 1) 1 :=
  claim_C6_estep_row_stochastic _ _ _ _ _ (fun _ _ => one_pos) one_pos
    fun _ => one_pos

/-- Claim C8: once the parameter checks pass, the E-step raises (the
`checkNoNans` failure inside `computeLLFromW`, matrix index 0) whenever the
unnormalized log-posterior matrix has a NaN or infinite entry; consequently a
successful E-step certifies that the matrix was entirely finite (and hence
that the total log-likelihood it computed is a real number). -/
theorem claim_C8_estep_nonfinite_guard {N D K : ℕ} (Y : Fin N → Fin D → ℝ)
    (cluster_mus cluster_sigmas : Fin D → Fin (K + 1) → ℝ)
    (cluster_weights : Fin (K + 1) → ℝ) (decay_coef : ℝ)
    (hs : ∀ d k, 0 < cluster_sigmas d k) (hd : 0 < decay_coef) :
    (¬ (∀ i k, ((computePosteriorLogZProbability Y cluster_mus cluster_sigmas
        cluster_weights decay_coef fun d k =>
          E1val (cluster_mus d k) (cluster_sigmas d k) decay_coef) i k).isFinite
        = true) →
      Estep Y cluster_mus cluster_sigmas cluster_weights decay_coef =
        .error (.nanMatrix 0)) ∧
    ∀ r, Estep Y cluster_mus cluster_sigmas cluster_weights decay_coef = .ok r →
      ∀ i k, ((computePosteriorLogZProbability Y cluster_mus cluster_sigmas
        cluster_weights decay_coef fun d k =>
          E1val (cluster_mus d k) (cluster_sigmas d k) decay_coef) i k).isFinite
        = true := by
  have hint := @computeIntegrals_ok _ _ cluster_mus _ _ hs hd
  have ha : ¬ (∀ i k, ((computePosteriorLogZProbability Y cluster_mus
      cluster_sigmas cluster_weights decay_coef fun d k =>
        E1val (cluster_mus d k) (cluster_sigmas d k) decay_coef) i k).isFinite
      = true) →
      Estep Y cluster_mus cluster_sigmas cluster_weights decay_coef =
        .error (.nanMatrix 0) := by
    intro h
    have hll : computeLLFromW (computePosteriorLogZProbability Y cluster_mus
        cluster_sigmas cluster_weights decay_coef fun d k =>
          E1val (cluster_mus d k) (cluster_sigmas d k) decay_coef) =
        .error (.nanMatrix 0) := by
      rw [computeLLFromW, if_neg h]
    rw [Estep, hint, integralTriple]
    simp only [hll]
  refine ⟨ha, fun r hr i k => ?_⟩
  by_cases h : ∀ i k, ((computePosteriorLogZProbability Y cluster_mus
      cluster_sigmas cluster_weights decay_coef fun d k =>
        E1val (cluster_mus d k) (cluster_sigmas d k) decay_coef) i k).isFinite
      = true
  · exact h i k
  · rw [ha h] at hr
    exact Except.noConfusion hr

theorem F.ninf_adds_not_finite (a b c d : ℝ) :
    (F.ninf + F.fin a + F.fin b + F.fin c + F.fin d).isFinite = false := rfl

/-- Witness for C8: with a zero mixture weight (and otherwise valid
parameters) the log-posterior entry is `-∞`, and the E-step raises the
`checkNoNans` exception. -/
theorem claim_C8_estep_nonfinite_guard_witness :
    Estep (N := 1) (D := 1) (K := 0) (fun _ _ => 1) (fun _ _ => 0)
      (fun _ _ => 1) (fun _ => 0) 1 = .error (.nanMatrix 0) := by
  apply (claim_C8_estep_nonfinite_guard _ _ _ _ _ (fun _ _ => one_pos)
    one_pos).1
  intro h
  have hent := h 0 0
  rw [computePosterior_entry] at hent
  simp only [Fin.sum_univ_one] at hent
  have hobs : ¬ |(1:ℝ)| < 1e-6 := by norm_num
  have hE1pos : 0 < E1val 0 1 1 := E1val_pos one_pos one_pos
  have hdec : (0:ℝ) < 1 - Real.exp (-1 * (1:ℝ) ^ 2) := by
    have hlt : Real.exp (-1 * (1:ℝ) ^ 2) < 1 := by
      rw [Real.exp_lt_one_iff]
      norm_num
    linarith
  have hsq : (0:ℝ) < Real.sqrt (2 * π * (1:ℝ) ^ 2) := by
    have := Real.pi_pos
    apply Real.sqrt_pos.2
    positivity
  rw [indF_false hobs, indF_true hobs, F.log_fin_zero,
    F.log_fin_of_pos hE1pos, F.mul_zero_fin, F.nan2num_fin,
    F.div_fin_fin 1 (ne_of_gt hsq), F.log_fin_of_pos (one_div_pos.2 hsq),
    F.mul_one_fin, F.log_fin_of_pos hdec, F.mul_one_fin, F.nan2num_fin,
    F.div_fin_fin _ (by norm_num : (2:ℝ) * 1 ^ 2 ≠ 0), F.mul_one_fin,
    F.neg_fin, F.ninf_adds_not_finite] at hent
  exact Bool.noConfusion hent

/-! ## Claim C10: the decay coefficient respects the hard lower bound -/

/-- Claim C10: provided the external bounded minimizer respects the lower
bound it is handed, the decay coefficient returned by every `Mstep` call is at
least `1e-4` (the hard bound passed as `bounds = [[1e-4, inf]]`), hence
strictly positive — so after any E/M iteration of the fit loop the decay
parameter satisfies the strict-positivity precondition of
`computeIntegrals`. -/
theorem claim_C10_decay_lower_bound {N D K : ℕ}
    (mini : (ℝ → ℝ × ℝ) → ℝ → ℝ → ℝ)
    (hmini : ∀ f x0 lb, lb ≤ mini f x0 lb) :
    (∀ (Y : Fin N → Fin D → ℝ) (W : Fin N → Fin (K + 1) → ℝ)
      (EX EX2 mus sigmas : Fin D → Fin (K + 1) → ℝ) (w : Fin (K + 1) → ℝ)
      (dc : ℝ),
      (1e-4:ℝ) ≤ (Mstep mini Y W EX EX2 mus sigmas w dc).2.2.2 ∧
        (0:ℝ) < (Mstep mini Y W EX EX2 mus sigmas w dc).2.2.2) ∧
    ∀ (Y : Fin N → Fin D → ℝ) (p : ZimmParams D K) (ll : ℝ)
      (p' : ZimmParams D K),
      zimmStep mini Y p = .ok (ll, p') →
        (1e-4:ℝ) ≤ p'.decay ∧ (0:ℝ) < p'.decay := by
  have hm : ∀ (Y : Fin N → Fin D → ℝ) (W : Fin N → Fin (K + 1) → ℝ)
      (EX EX2 mus sigmas : Fin D → Fin (K + 1) → ℝ) (w : Fin (K + 1) → ℝ)
      (dc : ℝ), (1e-4:ℝ) ≤ (Mstep mini Y W EX EX2 mus sigmas w dc).2.2.2 := by
    intro Y W EX EX2 mus sigmas w dc
    exact hmini _ dc 1e-4
  refine ⟨fun Y W EX EX2 mus sigmas w dc =>
    ⟨hm Y W EX EX2 mus sigmas w dc, lt_of_lt_of_le (by norm_num)
      (hm Y W EX EX2 mus sigmas w dc)⟩, fun Y p ll p' h => ?_⟩
  rw [zimmStep] at h
  cases hE : Estep Y p.mus p.sigmas p.weights p.decay with
  | error e =>
    rw [hE] at h
    exact Except.noConfusion h
  | ok r =>
    obtain ⟨W, ll2, E1, EX, EX2⟩ := r
    rw [hE] at h
    injection h with h2
    injection h2 with h3 h4
    have hdecay : p'.decay =
        (Mstep mini Y W EX EX2 p.mus p.sigmas p.weights p.decay).2.2.2 := by
      rw [← h4]
    rw [hdecay]
    exact ⟨hm _ _ _ _ _ _ _ _, lt_of_lt_of_le (by norm_num) (hm _ _ _ _ _ _ _ _)⟩

/-- Witness for C10 with the minimizer that returns its lower bound, on 1×1
data. -/
theorem claim_C10_decay_lower_bound_witness :
    (1e-4:ℝ) ≤ (Mstep (N := 1) (D := 1) (K := 0) (fun _ _ lb => lb)
        (fun _ _ => 0) (fun _ _ => 1) (fun _ _ => 0) (fun _ _ => 0)
        (fun _ _ => 0) (fun _ _ => 1) (fun _ => 1) 2).2.2.2 ∧
      (0:ℝ) < (Mstep (N := 1) (D := 1) (K := 0) (fun _ _ lb => lb)
        (fun _ _ => 0) (fun _ _ => 1) (fun _ _ => 0) (fun _ _ => 0)
        (fun _ _ => 0) (fun _ _ => 1) (fun _ => 1) 2).2.2.2 :=
  (claim_C10_decay_lower_bound (fun _ _ lb => lb) fun _ _ _ => le_refl _).1
    _ _ _ _ _ _ _ _

/-! ## Unfolding lemmas for the iteration loop -/

theorem getLastD_append_singleton {α : Type} :
    ∀ (l : List α) (a d : α), (l ++ [a]).getLastD d = a
  | [], _, _ => rfl
  | x :: xs, a, d => by
    rw [List.cons_append, List.getLastD_cons, getLastD_append_singleton xs a x]

theorem emLoop_stop {P α : Type} [LinearOrderedField α]
    (step : P → Except (ZimmError α) (α × P)) (th : α) {max_iter n_iter : ℕ}
    (p : P) (lls : List α) (h : max_iter ≤ n_iter) :
    emLoop step th max_iter n_iter p lls = .ok (p, lls) := by
  rw [emLoop, if_neg (not_lt.2 h)]

theorem emLoop_error {P α : Type} [LinearOrderedField α]
    {step : P → Except (ZimmError α) (α × P)} (th : α) {max_iter n_iter : ℕ}
    {p : P} (lls : List α) (h : n_iter < max_iter) {e : ZimmError α}
    (hstep : step p = .error e) :
    emLoop step th max_iter n_iter p lls = .error e := by
  rw [emLoop, if_pos h, hstep]

theorem emLoop_succ {P α : Type} [LinearOrderedField α]
    {step : P → Except (ZimmError α) (α × P)} (th : α) {max_iter n_iter : ℕ}
    {p : P} (lls : List α) (h : n_iter < max_iter) {ll : α} {p' : P}
    (hstep : step p = .ok (ll, p')) :
    emLoop step th max_iter n_iter p lls =
      if 2 ≤ (lls ++ [ll]).length then
        if (lls ++ [ll]).getLastD 0 < (lls ++ [ll]).dropLast.getLastD 0 then
          .error (.monotonicity ((lls ++ [ll]).dropLast.getLastD 0)
            ((lls ++ [ll]).getLastD 0))
        else if |(lls ++ [ll]).getLastD 0 - (lls ++ [ll]).dropLast.getLastD 0| < th
          then .ok (p', lls ++ [ll])
        else if max_iter ≤ n_iter then .ok (p', lls ++ [ll])
        else emLoop step th max_iter (n_iter + 1) p' (lls ++ [ll])
      else if max_iter ≤ n_iter then .ok (p', lls ++ [ll])
      else emLoop step th max_iter (n_iter + 1) p' (lls ++ [ll]) := by
  rw [emLoop, if_pos h, hstep]

theorem fitModelG_ok {P α Z : Type} [LinearOrderedField α]
    {step : P → Except (ZimmError α) (α × P)}
    {finalE : P → Except (ZimmError α) (α × Z)} {max_iter : ℕ} {th : α}
    {p0 : P} {z : Z} {pf : P} {lls : List α}
    (h : fitModelG step finalE max_iter th p0 = .ok (z, pf, lls)) :
    emLoop step th max_iter 0 p0 [] = .ok (pf, lls) ∧
      ∃ llf, finalE pf = .ok (llf, z) := by
  rw [fitModelG] at h
  cases hloop : emLoop step th max_iter 0 p0 [] with
  | error e =>
    rw [hloop] at h
    exact Except.noConfusion h
  | ok r =>
    obtain ⟨p1, lls1⟩ := r
    rw [hloop] at h
    dsimp only at h
    cases hfin : finalE p1 with
    | error e =>
      rw [hfin] at h
      exact Except.noConfusion h
    | ok s =>
      obtain ⟨llf, z1⟩ := s
      rw [hfin] at h
      dsimp only at h
      injection h with h2
      injection h2 with hz h3
      injection h3 with hp hl
      exact ⟨by rw [hp, hl], llf, by rw [hz] at hfin; rw [hp] at hfin; exact hfin⟩

theorem getLastD_of_getLast? {α : Type} :
    ∀ {l : List α} {x : α}, l.getLast? = some x → ∀ d, l.getLastD d = x
  | [], x, h => by exact Option.noConfusion h
  | [a], x, h => by
    intro d
    have h2 : a = x := by
      rw [List.getLast?_singleton] at h
      exact Option.some.inj h
    rw [← h2]
    rfl
  | a :: b :: t, x, h => by
    intro d
    rw [List.getLast?_cons_cons] at h
    rw [List.getLastD_cons]
    exact getLastD_of_getLast? h b

theorem chain_extend {α : Type} [LinearOrderedField α] {lls : List α} {ll : α}
    (hchain : lls.Chain' (· ≤ ·))
    (hnot : ¬ ((lls ++ [ll]).getLastD 0 < (lls ++ [ll]).dropLast.getLastD 0)) :
    (lls ++ [ll]).Chain' (· ≤ ·) := by
  rw [List.chain'_append]
  refine ⟨hchain, List.chain'_singleton _, fun x hx y hy => ?_⟩
  have hy2 : y = ll := by
    rw [List.head?_cons, Option.mem_def] at hy
    injection hy with h2
    exact h2.symm
  rw [getLastD_append_singleton, List.dropLast_concat] at hnot
  have hx2 : lls.getLastD 0 = x := getLastD_of_getLast? (Option.mem_def.1 hx) 0
  rw [hy2, ← hx2]
  exact not_lt.1 hnot

theorem emLoop_length {P α : Type} [LinearOrderedField α]
    (step : P → Except (ZimmError α) (α × P)) (th : α) :
    ∀ (fuel max_iter n_iter : ℕ) (p : P) (lls : List α) (pf : P)
      (llsf : List α), max_iter - n_iter ≤ fuel →
      emLoop step th max_iter n_iter p lls = .ok (pf, llsf) →
      llsf.length ≤ lls.length + (max_iter - n_iter) := by
  intro fuel
  induction fuel with
  | zero =>
    intro mi n p lls pf llsf hf h
    rw [emLoop_stop step th p lls (by omega)] at h
    injection h with h2
    injection h2 with hp hl
    subst hl
    exact Nat.le_add_right _ _
  | succ fuel ih =>
    intro mi n p lls pf llsf hf h
    by_cases hn : n < mi
    · cases hstep : step p with
      | error e =>
        rw [emLoop_error th lls hn hstep] at h
        exact Except.noConfusion h
      | ok r =>
        obtain ⟨ll, p'⟩ := r
        rw [emLoop_succ th lls hn hstep] at h
        have hcap : ¬ mi ≤ n := not_le.2 hn
        by_cases c1 : 2 ≤ (lls ++ [ll]).length
        · rw [if_pos c1] at h
          by_cases c2 : (lls ++ [ll]).getLastD 0 <
              (lls ++ [ll]).dropLast.getLastD 0
          · rw [if_pos c2] at h
            exact Except.noConfusion h
          · rw [if_neg c2] at h
            by_cases c3 : |(lls ++ [ll]).getLastD 0 -
                (lls ++ [ll]).dropLast.getLastD 0| < th
            · rw [if_pos c3] at h
              injection h with h2
              injection h2 with hp hl
              subst hl
              simp only [List.length_append, List.length_singleton]
              omega
            · rw [if_neg c3, if_neg hcap] at h
              have hrec := ih mi (n + 1) p' (lls ++ [ll]) pf llsf (by omega) h
              simp only [List.length_append, List.length_singleton] at hrec
              omega
        · rw [if_neg c1, if_neg hcap] at h
          have hrec := ih mi (n + 1) p' (lls ++ [ll]) pf llsf (by omega) h
          simp only [List.length_append, List.length_singleton] at hrec
          omega
    · rw [emLoop_stop step th p lls (by omega)] at h
      injection h with h2
      injection h2 with hp hl
      subst hl
      exact Nat.le_add_right _ _

theorem emLoop_chain {P α : Type} [LinearOrderedField α]
    (step : P → Except (ZimmError α) (α × P)) (th : α) :
    ∀ (fuel max_iter n_iter : ℕ) (p : P) (lls : List α) (pf : P)
      (llsf : List α), max_iter - n_iter ≤ fuel →
      emLoop step th max_iter n_iter p lls = .ok (pf, llsf) →
      lls.Chain' (· ≤ ·) → llsf.Chain' (· ≤ ·) := by
  intro fuel
  induction fuel with
  | zero =>
    intro mi n p lls pf llsf hf h hchain
    rw [emLoop_stop step th p lls (by omega)] at h
    injection h with h2
    injection h2 with hp hl
    subst hl
    exact hchain
  | succ fuel ih =>
    intro mi n p lls pf llsf hf h hchain
    by_cases hn : n < mi
    · cases hstep : step p with
      | error e =>
        rw [emLoop_error th lls hn hstep] at h
        exact Except.noConfusion h
      | ok r =>
        obtain ⟨ll, p'⟩ := r
        rw [emLoop_succ th lls hn hstep] at h
        have hcap : ¬ mi ≤ n := not_le.2 hn
        by_cases c1 : 2 ≤ (lls ++ [ll]).length
        · rw [if_pos c1] at h
          by_cases c2 : (lls ++ [ll]).getLastD 0 <
              (lls ++ [ll]).dropLast.getLastD 0
          · rw [if_pos c2] at h
            exact Except.noConfusion h
          · rw [if_neg c2] at h
            have hchain2 : (lls ++ [ll]).Chain' (· ≤ ·) :=
              chain_extend hchain c2
            by_cases c3 : |(lls ++ [ll]).getLastD 0 -
                (lls ++ [ll]).dropLast.getLastD 0| < th
            · rw [if_pos c3] at h
              injection h with h2
              injection h2 with hp hl
              subst hl
              exact hchain2
            · rw [if_neg c3, if_neg hcap] at h
              exact ih mi (n + 1) p' (lls ++ [ll]) pf llsf (by omega) h hchain2
        · rw [if_neg c1, if_neg hcap] at h
          have hnil : lls = [] := by
            simp only [List.length_append, List.length_singleton] at c1
            have : lls.length = 0 := by omega
            exact List.length_eq_zero.1 this
          have hchain2 : (lls ++ [ll]).Chain' (· ≤ ·) := by
            rw [hnil]
            exact List.chain'_singleton _
          exact ih mi (n + 1) p' (lls ++ [ll]) pf llsf (by omega) h hchain2
    · rw [emLoop_stop step th p lls (by omega)] at h
      injection h with h2
      injection h2 with hp hl
      subst hl
      exact hchain

theorem emParams_succ_front {P α : Type}
    {step : P → Except (ZimmError α) (α × P)} {p p' : P} {ll : α}
    (hstep : step p = .ok (ll, p')) :
    ∀ j, emParams step p (j + 1) = emParams step p' j := by
  intro j
  induction j with
  | zero =>
    simp [emParams, hstep, Except.toOption]
  | succ j ih =>
    rw [emParams, ih, emParams]

theorem emLL_zero {P α : Type} {step : P → Except (ZimmError α) (α × P)}
    {p p' : P} {ll : α} (hstep : step p = .ok (ll, p')) :
    emLL step p 0 = some ll := by
  rw [emLL, emParams, Option.some_bind, hstep]
  rfl

theorem emLL_succ_front {P α : Type}
    {step : P → Except (ZimmError α) (α × P)} {p p' : P} {ll : α}
    (hstep : step p = .ok (ll, p')) :
    ∀ j, emLL step p (j + 1) = emLL step p' j := by
  intro j
  rw [emLL, emLL, emParams_succ_front hstep]

theorem emLoop_trace {P α : Type} [LinearOrderedField α]
    (step : P → Except (ZimmError α) (α × P)) (th : α) :
    ∀ (fuel max_iter n_iter : ℕ) (p : P) (lls : List α) (pf : P)
      (llsf : List α), max_iter - n_iter ≤ fuel →
      emLoop step th max_iter n_iter p lls = .ok (pf, llsf) →
      ∃ tail, llsf = lls ++ tail ∧
        (∀ j, (hj : j < tail.length) → emLL step p j = some (tail.get ⟨j, hj⟩)) ∧
        emParams step p tail.length = some pf := by
  intro fuel
  induction fuel with
  | zero =>
    intro mi n p lls pf llsf hf h
    rw [emLoop_stop step th p lls (by omega)] at h
    injection h with h2
    injection h2 with hp hl
    subst hl
    subst hp
    exact ⟨[], by rw [List.append_nil], fun j hj => absurd hj (by simp), rfl⟩
  | succ fuel ih =>
    intro mi n p lls pf llsf hf h
    by_cases hn : n < mi
    · cases hstep : step p with
      | error e =>
        rw [emLoop_error th lls hn hstep] at h
        exact Except.noConfusion h
      | ok r =>
        obtain ⟨ll, p'⟩ := r
        rw [emLoop_succ th lls hn hstep] at h
        have hcap : ¬ mi ≤ n := not_le.2 hn
        have hone : ∃ tail, lls ++ [ll] = lls ++ tail ∧
            (∀ j, (hj : j < tail.length) →
              emLL step p j = some (tail.get ⟨j, hj⟩)) ∧
            emParams step p tail.length = some p' := by
          refine ⟨[ll], rfl, fun j hj => ?_, ?_⟩
          · have hj0 : j = 0 := by
              simp only [List.length_singleton] at hj
              omega
            subst hj0
            rw [emLL_zero hstep]
            rfl
          · rw [List.length_singleton, emParams_succ_front hstep, emParams]
        have hrec : emLoop step th mi (n + 1) p' (lls ++ [ll]) = .ok (pf, llsf) →
            ∃ tail, llsf = lls ++ tail ∧
              (∀ j, (hj : j < tail.length) →
                emLL step p j = some (tail.get ⟨j, hj⟩)) ∧
              emParams step p tail.length = some pf := by
          intro hh
          obtain ⟨tail', htl, hj', hp'⟩ := ih mi (n + 1) p' (lls ++ [ll]) pf
            llsf (by omega) hh
          refine ⟨ll :: tail', by rw [htl, List.append_assoc]; rfl,
            fun j hj => ?_, ?_⟩
          · cases j with
            | zero =>
              rw [emLL_zero hstep]
              rfl
            | succ j =>
              rw [emLL_succ_front hstep]
              have hj2 : j < tail'.length := by
                simp only [List.length_cons] at hj
                omega
              rw [hj' j hj2]
              rfl
          · rw [List.length_cons, emParams_succ_front hstep]
            exact hp'
        by_cases c1 : 2 ≤ (lls ++ [ll]).length
        · rw [if_pos c1] at h
          by_cases c2 : (lls ++ [ll]).getLastD 0 <
              (lls ++ [ll]).dropLast.getLastD 0
          · rw [if_pos c2] at h
            exact Except.noConfusion h
          · rw [if_neg c2] at h
            by_cases c3 : |(lls ++ [ll]).getLastD 0 -
                (lls ++ [ll]).dropLast.getLastD 0| < th
            · rw [if_pos c3] at h
              injection h with h2
              injection h2 with hp hl
              subst hl
              subst hp
              exact hone
            · rw [if_neg c3, if_neg hcap] at h
              exact hrec h
        · rw [if_neg c1, if_neg hcap] at h
          exact hrec h
    · rw [emLoop_stop step th p lls (by omega)] at h
      injection h with h2
      injection h2 with hp hl
      subst hl
      subst hp
      exact ⟨[], by rw [List.append_nil], fun j hj => absurd hj (by simp), rfl⟩

/-! ## Claim C1: the monotonicity guard -/

/-- Claim C1: whenever an iteration appends a log-likelihood strictly below
the previous trace entry, the loop raises `monotonicity` carrying both values;
consequently every normal return of the fit (generic `fitModelG` and the
concrete `fitModel`) carries a non-decreasing trace. -/
theorem claim_C1_monotonicity_guard {P α Z : Type} [LinearOrderedField α]
    (step : P → Except (ZimmError α) (α × P))
    (finalE : P → Except (ZimmError α) (α × Z)) (th : α) :
    (∀ (max_iter n_iter : ℕ) (p : P) (lls : List α) (ll : α) (p' : P)
      (prev : α), n_iter < max_iter → step p = .ok (ll, p') →
      lls.getLast? = some prev → ll < prev →
      emLoop step th max_iter n_iter p lls = .error (.monotonicity prev ll)) ∧
    (∀ (max_iter : ℕ) (p0 : P) (z : Z) (pf : P) (lls : List α),
      fitModelG step finalE max_iter th p0 = .ok (z, pf, lls) →
      lls.Chain' (· ≤ ·)) ∧
    (∀ (N D K : ℕ) (mini : (ℝ → ℝ × ℝ) → ℝ → ℝ → ℝ) (Y : Fin N → Fin D → ℝ)
      (p0 : ZimmParams D K) (max_iter : ℕ) (th2 : ℝ) (z : Fin N → Fin (K + 1))
      (pf : ZimmParams D K) (lls : List ℝ),
      fitModel mini Y p0 max_iter th2 = .ok (z, pf, lls) →
      lls.Chain' (· ≤ ·)) := by
  refine ⟨fun mi n p lls ll p' prev hn hstep hlast hlt => ?_,
    fun mi p0 z pf lls h => ?_, fun N D K mini Y p0 mi th2 z pf lls h => ?_⟩
  · rw [emLoop_succ th lls hn hstep]
    have hne : lls ≠ [] := by
      intro he
      rw [he] at hlast
      exact Option.noConfusion hlast
    have c1 : 2 ≤ (lls ++ [ll]).length := by
      simp only [List.length_append, List.length_singleton]
      have := List.length_pos.2 hne
      omega
    rw [if_pos c1, getLastD_append_singleton, List.dropLast_concat,
      getLastD_of_getLast? hlast 0, if_pos hlt]
  · obtain ⟨hloop, -⟩ := fitModelG_ok h
    exact emLoop_chain step th mi mi 0 p0 [] pf lls (by omega) hloop
      List.chain'_nil
  · rw [fitModel] at h
    obtain ⟨hloop, -⟩ := fitModelG_ok h
    exact emLoop_chain _ th2 mi mi 0 p0 [] pf lls (by omega) hloop
      List.chain'_nil

/-- Witness for C1: a constant step producing `0` after a trace ending in `1`
raises `monotonicity 1 0`; and a concrete normal run has a non-decreasing
(singleton) trace. -/
theorem claim_C1_monotonicity_guard_witness :
    emLoop (fun q : ℚ => .ok (q - 1, q)) 1 1 0 0 [1] =
      .error (.monotonicity 1 (0 - 1)) ∧
    List.Chain' (· ≤ ·) ([0 - 1] : List ℚ) := by
  have hthm := claim_C1_monotonicity_guard (fun q : ℚ => .ok (q - 1, q))
    (fun q : ℚ => (.ok (q, q) : Except (ZimmError ℚ) (ℚ × ℚ))) 1
  constructor
  · exact hthm.1 1 0 0 [1] (0 - 1) 0 1 (by norm_num) rfl rfl (by norm_num)
  · apply hthm.2.1 1 0 0 0 [0 - 1]
    rw [fitModelG]
    rw [emLoop_succ (1:ℚ) [] (by norm_num) rfl]
    simp only [List.nil_append]
    rw [if_neg (by simp), if_neg (by omega)]
    rw [emLoop_stop _ _ _ _ (le_refl 1)]

/-! ## Claim C7: the iteration cap -/

/-- Claim C7: the loop performs at most `max_iter` E/M iterations — a normal
return's trace gains at most `max_iter - n_iter` further entries, so a
normally returning fit has at most `max_iter` trace entries — and reaching
the cap exits the loop as a normal return, never an error. -/
theorem claim_C7_iteration_cap {P α Z : Type} [LinearOrderedField α]
    (step : P → Except (ZimmError α) (α × P))
    (finalE : P → Except (ZimmError α) (α × Z)) (th : α) :
    (∀ (max_iter n_iter : ℕ) (p : P) (lls : List α), max_iter ≤ n_iter →
      emLoop step th max_iter n_iter p lls = .ok (p, lls)) ∧
    (∀ (max_iter n_iter : ℕ) (p : P) (lls : List α) (pf : P) (llsf : List α),
      emLoop step th max_iter n_iter p lls = .ok (pf, llsf) →
      llsf.length ≤ lls.length + (max_iter - n_iter)) ∧
    (∀ (max_iter : ℕ) (p0 : P) (z : Z) (pf : P) (lls : List α),
      fitModelG step finalE max_iter th p0 = .ok (z, pf, lls) →
      lls.length ≤ max_iter) := by
  refine ⟨fun mi n p lls h => emLoop_stop step th p lls h,
    fun mi n p lls pf llsf h =>
      emLoop_length step th (mi - n) mi n p lls pf llsf (le_refl _) h,
    fun mi p0 z pf lls h => ?_⟩
  obtain ⟨hloop, -⟩ := fitModelG_ok h
  have := emLoop_length step th mi mi 0 p0 [] pf lls (by omega) hloop
  simpa using this

/-- Witness for C7: a loop entered at the cap returns its state unchanged,
and a concrete one-iteration run has trace length `1 ≤ max_iter = 1`. -/
theorem claim_C7_iteration_cap_witness :
    emLoop (fun q : ℚ => .ok (q, q + 1)) 1 2 5 7 [3] = .ok (7, [3]) ∧
    ([(0:ℚ)] : List ℚ).length ≤ 1 := by
  have hthm := claim_C7_iteration_cap (fun q : ℚ => .ok (q, q + 1))
    (fun q : ℚ => (.ok (q, q) : Except (ZimmError ℚ) (ℚ × ℚ))) 1
  refine ⟨hthm.1 2 5 7 [3] (by omega), hthm.2.2 1 0 (0 + 1) (0 + 1) [0] ?_⟩
  rw [fitModelG]
  rw [emLoop_succ (1:ℚ) [] (by norm_num) rfl]
  simp only [List.nil_append]
  rw [if_neg (by simp), if_neg (by omega)]
  rw [emLoop_stop _ _ _ _ (le_refl 1)]

/-! ## Claim C4: the likelihood trace versus the E-steps -/

/-- Amended claim C4: on every normal return, entry `j` of the returned trace
is exactly the log-likelihood of the `j`-th loop iteration's E-step (in order
of completion), and the returned parameters are the ones reached after
`lls.length` iterations — the final E-step performed after the loop
contributes no trace entry. -/
theorem claim_C4_amended_trace {P α Z : Type} [LinearOrderedField α]
    (step : P → Except (ZimmError α) (α × P))
    (finalE : P → Except (ZimmError α) (α × Z)) (max_iter : ℕ) (th : α)
    (p0 : P) (z : Z) (pf : P) (lls : List α)
    (h : fitModelG step finalE max_iter th p0 = .ok (z, pf, lls)) :
    traceMatchesLoopSteps step p0 lls pf := by
  obtain ⟨hloop, -⟩ := fitModelG_ok h
  obtain ⟨tail, htl, hj, hp⟩ := emLoop_trace step th max_iter max_iter 0 p0 []
    pf lls (by omega) hloop
  rw [List.nil_append] at htl
  subst htl
  exact ⟨hj, hp⟩

/-- Witness for the amended C4 on a concrete one-iteration run. -/
theorem claim_C4_amended_trace_witness :
    traceMatchesLoopSteps (fun q : ℚ => .ok (q, q + 1)) 0 [0] (0 + 1) := by
  apply claim_C4_amended_trace (fun q : ℚ => .ok (q, q + 1))
    (fun q : ℚ => (.ok (q, q) : Except (ZimmError ℚ) (ℚ × ℚ))) 1 1 0 (0 + 1)
  rw [fitModelG]
  rw [emLoop_succ (1:ℚ) [] (by norm_num) rfl]
  simp only [List.nil_append]
  rw [if_neg (by simp), if_neg (by omega)]
  rw [emLoop_stop _ _ _ _ (le_refl 1)]

/-- Counterexample to claim C4 as stated: on a concrete normally-returning
run, the loop performs one E-step (log-likelihood `0`) and the controller
performs one final E-step after the loop (log-likelihood `1` at the final
parameters `1`), yet the returned trace is `[0]` — it has no entry for the
final E-step. -/
theorem claim_C4_counterexample :
    fitModelG (fun q : ℚ => .ok (q, q + 1)) (fun q : ℚ => .ok (q, q)) 1
        (1 / 10) 0 = .ok (0 + 1, 0 + 1, [0]) ∧
    (fun q : ℚ => (.ok (q, q) : Except (ZimmError ℚ) (ℚ × ℚ))) (0 + 1) =
      .ok (1, 1) ∧
    (1:ℚ) ∉ ([0] : List ℚ) := by
  refine ⟨?_, by norm_num, by norm_num⟩
  rw [fitModelG]
  rw [emLoop_succ ((1:ℚ) / 10) [] (by norm_num) rfl]
  simp only [List.nil_append]
  rw [if_neg (by simp), if_neg (by omega)]
  rw [emLoop_stop _ _ _ _ (le_refl 1)]
